import Mathlib

/-!
# bin-patcher: signature location and in-place patching

A shallow embedding of `main.go` (package `main` of deckarep/bin-patcher) and
theorems about it.

Modelling conventions.

* A Go `byte` is a `Fin 256`; a Go `string` is the list of its bytes, so `len`
  is `List.length`.
* A Go `[]byte` is a `Slice`: its `len` visible elements (`data`) together with
  the elements of the backing array between `len` and `cap` (`spare`).  Go
  bounds an index expression `f[i]` by `len(f)` but a slice expression
  `f[lo:hi]` on a slice by `cap(f)`; both rules are used by the program.
* Go `int` values are `Int`/`Nat`; all quantities are lengths of in-memory
  slices, so 64-bit wraparound never occurs.
* A run-time panic and a `log.Fatal` both end the process; they are the two
  constructors of `Fault`.  Functions that can end the process return the
  fault explicitly.
-/

namespace BinPatcher

/-- A Go `byte`. -/
abbrev Byte := Fin 256

/-- A Go `string`: a read-only sequence of bytes. -/
abbrev GoString := List Byte

/-- The bytes of an ASCII string literal (used to write down inputs). -/
def ascii (s : String) : GoString :=
  s.toList.map (fun c => Fin.ofNat c.toNat)

/-- A Go `[]byte` value, seen from its first element: `data` holds the `len`
elements, `spare` the rest of the backing array up to `cap`. -/
structure Slice where
  data : List Byte
  spare : List Byte
  deriving DecidableEq, Repr

namespace Slice

/-- Go `len(f)`. -/
def len (f : Slice) : Nat := f.data.length

/-- Go `cap(f)`. -/
def cap (f : Slice) : Nat := f.data.length + f.spare.length

/-- A slice whose capacity equals its length (a slice literal, `make([]byte, n)`). -/
def ofList (l : List Byte) : Slice := ⟨l, []⟩

/-- The elements of the Go slice expression `f[lo:hi]`; `none` is the run-time
panic "slice bounds out of range".  For a slice operand the upper bound is
`cap(f)`, not `len(f)`. -/
def slice (f : Slice) (lo hi : Nat) : Option (List Byte) :=
  if lo ≤ hi ∧ hi ≤ f.cap then some (((f.data ++ f.spare).drop lo).take (hi - lo)) else none

/-- The store `f[i] = b` for an index already known to be below `len(f)`. -/
def set (f : Slice) (i : Nat) (b : Byte) : Slice := ⟨f.data.set i b, f.spare⟩

end Slice

/-- Errors of `encoding/hex`. -/
inductive HexError
  | invalidByte (c : Byte)
  | errLength
  deriving DecidableEq, Repr

/-- The run-time panics the program can raise. -/
inductive Panic
  | indexOutOfRange
  | sliceBoundsOutOfRange
  deriving DecidableEq, Repr

/-- The `log.Fatal` call sites of `main.go`, after the definition has been read. -/
inductive Fatal
  /-- "failed to read file defined in file patch sequence with err:" -/
  | inputRead
  /-- "Signature and Patch must match in byte size: (in-place changes only)" -/
  | sizeMismatch
  /-- "failed to decode hex string with err:" -/
  | hexDecode (e : HexError)
  /-- "patch transition not applied because: Signature Not Found!" -/
  | signatureNotFound
  /-- "Multiple matches occurred: Signature is not specific enough!!!" -/
  | multipleMatches
  /-- "failed to output file to: %q" -/
  | outputWrite
  deriving DecidableEq, Repr

/-- The ways the process ends early. -/
inductive Fault
  | panic (p : Panic)
  | fatal (m : Fatal)
  deriving DecidableEq, Repr

deriving instance DecidableEq for Except

/-! ## `identifySignatureOffset` -/

/-- The three local variables of `identifySignatureOffset`. -/
structure ScanState where
  offsetIndex : Nat
  offsetIdentified : Nat
  matchCount : Nat
  deriving DecidableEq, Repr

/-- The body of `for _, b := range f`, run over the elements of `f` still to be
visited.  `signature[0]` is evaluated once per visited element and panics on an
empty signature; `f[offsetIndex : offsetIndex+len(signature)]` is evaluated for
every element equal to `signature[0]`, with no check against `len(f)`. -/
def scan (f : Slice) (signature : List Byte) : List Byte → ScanState → Except Fault ScanState
  | [], st => .ok st
  | b :: rest, st =>
    match signature with
    | [] => .error (.panic .indexOutOfRange)
    | s0 :: _ =>
      if b = s0 then
        match f.slice st.offsetIndex (st.offsetIndex + signature.length) with
        | none => .error (.panic .sliceBoundsOutOfRange)
        | some remaining =>
          if signature = remaining then
            scan f signature rest
              ⟨st.offsetIndex + 1, st.offsetIndex, st.matchCount + 1⟩
          else
            scan f signature rest ⟨st.offsetIndex + 1, st.offsetIdentified, st.matchCount⟩
      else
        scan f signature rest ⟨st.offsetIndex + 1, st.offsetIdentified, st.matchCount⟩

/-- Go `identifySignatureOffset(f, signature)`: the pair `(offset, found)`, or
the fault that ended the process. -/
def identifySignatureOffset (f : Slice) (signature : List Byte) : Except Fault (Int × Bool) :=
  match scan f signature f.data ⟨0, 0, 0⟩ with
  | .error e => .error e
  | .ok st =>
    if st.matchCount = 0 then .ok (-1, false)
    else if st.matchCount > 1 then .error (.fatal .multipleMatches)
    else .ok ((st.offsetIdentified : Int), true)

/-! ## `applyPatch` -/

/-- The loop `for i, b := range patch { f[offset+i] = b }` from index `i` on.
The result is the buffer as the loop left it, and the panic if an index was out
of range. -/
def applyPatchFrom (offset : Int) : Nat → List Byte → Slice → Slice × Option Fault
  | _, [], f => (f, none)
  | i, b :: rest, f =>
    if 0 ≤ offset + (i : Int) ∧ offset + (i : Int) < (f.len : Int) then
      applyPatchFrom offset (i + 1) rest (f.set (offset + (i : Int)).toNat b)
    else
      (f, some (.panic .indexOutOfRange))

/-- Go `applyPatch(f, offset, patch)`; `patch` does not alias `f` (in `main` it
is freshly decoded). -/
def applyPatch (f : Slice) (offset : Int) (patch : List Byte) : Slice × Option Fault :=
  applyPatchFrom offset 0 patch f

/-- Pattern `P` occurs in `B` at starting offset `o`: `B[o : o+len(P)] = P`. -/
def occursAt (B P : List Byte) (o : Nat) : Prop :=
  o + P.length ≤ B.length ∧ (B.drop o).take P.length = P

instance (B P : List Byte) (o : Nat) : Decidable (occursAt B P o) := by
  unfold occursAt; infer_instance

/-! ## `encoding/hex` and `decodeHexString` -/

/-- Go `encoding/hex`: the value of one hexadecimal digit, `none` for any other byte. -/
def fromHexChar (c : Byte) : Option Byte :=
  if 0x30 ≤ c ∧ c ≤ 0x39 then some (c - 0x30)
  else if 0x61 ≤ c ∧ c ≤ 0x66 then some (c - 0x61 + 10)
  else if 0x41 ≤ c ∧ c ≤ 0x46 then some (c - 0x41 + 10)
  else none

/-- Go `hex.DecodeString(s)`: two digits per byte, `(a << 4) | b`; the first
invalid byte is reported, and an odd length is reported as `ErrLength` unless the
last byte is itself invalid. -/
def hexDecodeString : GoString → Except HexError (List Byte)
  | [] => .ok []
  | [c] =>
    match fromHexChar c with
    | none => .error (.invalidByte c)
    | some _ => .error .errLength
  | p :: q :: rest =>
    match fromHexChar p with
    | none => .error (.invalidByte p)
    | some a =>
      match fromHexChar q with
      | none => .error (.invalidByte q)
      | some b =>
        match hexDecodeString rest with
        | .error e => .error e
        | .ok bs => .ok (((a <<< 4) ||| b) :: bs)

/-- Go `hextable`, indexed by a value below 16. -/
def hextable : List Byte := ascii "0123456789abcdef"

/-- Go `hex.EncodeToString(src)`: `hextable[v>>4]`, `hextable[v&0x0f]` for each byte. -/
def hexEncodeToString : List Byte → GoString
  | [] => []
  | v :: rest =>
    hextable.getD (v >>> 4).val 0 :: hextable.getD (v &&& 0x0f).val 0 :: hexEncodeToString rest

/-- Go `decodeHexString(s)`: the decoded bytes, or `log.Fatal` on any decoding error. -/
def decodeHexString (s : GoString) : Except Fault (List Byte) :=
  match hexDecodeString s with
  | .error e => .error (.fatal (.hexDecode e))
  | .ok decoded => .ok decoded

/-! ## The patch definition -/

/-- The field `Transition` of a sequence entry. -/
structure Transition where
  signature : GoString
  patch : GoString
  deriving DecidableEq, Repr

/-- One element of `Sequence`. -/
structure SequenceEntry where
  desc : GoString
  settings : GoString
  transition : Transition
  deriving DecidableEq, Repr

/-- One element of a `PatchDefinition`. -/
structure FileSequence where
  inputFile : GoString
  outputFile : GoString
  sequence : List SequenceEntry
  deriving DecidableEq, Repr

/-- Go `PatchDefinition`. -/
abbrev PatchDefinition := List FileSequence

/-! ## `main` -/

/-- The lines `main` prints on standard output, with their arguments. -/
inductive Output
  /-- "Sequence num: %d, filename: %q\n" -/
  | sequenceNum (i : Nat) (filename : GoString)
  /-- "  Signature byte len: %d\n" -/
  | signatureByteLen (n : Nat)
  /-- "  Patch byte len: %d\n" -/
  | patchByteLen (n : Nat)
  /-- "before (%d): %s\n" -/
  | before (i : Nat) (hex : GoString)
  /-- "after  (%d): %s\n" -/
  | after (i : Nat) (hex : GoString)
  deriving DecidableEq, Repr

/-- What a stretch of `main` working on the buffer `f` has done: the lines
printed, the buffer as it stands, and the fault if the process ended. -/
structure Run where
  out : List Output
  buf : Slice
  fault : Option Fault
  deriving DecidableEq, Repr

/-- The body of `for i, seq := range fileSeq.Sequence` in `main`, on the current
buffer `f`.  In source order: the length comparison of the two hex strings, the
decoding of the signature, the "before" line, `identifySignatureOffset`, and
only when that reports `found` the decoding of the patch, `applyPatch` and the
"after" line. -/
def mainTransition (inputFile : GoString) (i : Nat) (seq : SequenceEntry) (f : Slice) : Run :=
  if seq.transition.signature.length ≠ seq.transition.patch.length then
    ⟨[.sequenceNum i inputFile, .signatureByteLen seq.transition.signature.length,
      .patchByteLen seq.transition.patch.length], f, some (.fatal .sizeMismatch)⟩
  else
    match decodeHexString seq.transition.signature with
    | .error e => ⟨[], f, some e⟩
    | .ok decodedString =>
      match identifySignatureOffset f decodedString with
      | .error e => ⟨[.before i (hexEncodeToString f.data)], f, some e⟩
      | .ok (offset, found) =>
        if found then
          match decodeHexString seq.transition.patch with
          | .error e => ⟨[.before i (hexEncodeToString f.data)], f, some e⟩
          | .ok decodedPatch =>
            match applyPatch f offset decodedPatch with
            | (f1, some e) => ⟨[.before i (hexEncodeToString f.data)], f1, some e⟩
            | (f1, none) =>
              ⟨[.before i (hexEncodeToString f.data), .after i (hexEncodeToString f1.data)],
                f1, none⟩
        else
          ⟨[.before i (hexEncodeToString f.data)], f, some (.fatal .signatureNotFound)⟩

/-- The loop `for i, seq := range fileSeq.Sequence` of `main`, from index `i` on:
a fault ends it, otherwise the next transition works on the buffer the
previous one left. -/
def mainSequence (inputFile : GoString) : Nat → List SequenceEntry → Slice → Run
  | _, [], f => ⟨[], f, none⟩
  | i, seq :: rest, f =>
    match (mainTransition inputFile i seq f).fault with
    | some e =>
      ⟨(mainTransition inputFile i seq f).out, (mainTransition inputFile i seq f).buf, some e⟩
    | none =>
      ⟨(mainTransition inputFile i seq f).out ++
          (mainSequence inputFile (i + 1) rest (mainTransition inputFile i seq f).buf).out,
        (mainSequence inputFile (i + 1) rest (mainTransition inputFile i seq f).buf).buf,
        (mainSequence inputFile (i + 1) rest (mainTransition inputFile i seq f).buf).fault⟩

/-- The part of the environment `main` touches.  `files` gives the stored
content of each readable path; `readSpare` is the unused capacity of the slice
`ioutil.ReadFile` returns for a given content (chosen by the Go library);
`writable` tells whether `ioutil.WriteFile` to a path succeeds. -/
structure World where
  files : GoString → Option (List Byte)
  readSpare : List Byte → List Byte
  writable : GoString → Bool

/-- Go `ioutil.ReadFile(path)`. -/
def World.readFile (w : World) (path : GoString) : Option Slice :=
  match w.files path with
  | none => none
  | some content => some ⟨content, w.readSpare content⟩

/-- Go `ioutil.WriteFile(path, data, 0666)`: on success `path` holds `data`. -/
def World.writeFile (w : World) (path : GoString) (data : List Byte) : Option World :=
  if w.writable path then
    some { w with files := fun p => if p = path then some data else w.files p }
  else none

/-- How `main` ends: the environment it leaves, the lines printed, and the fault
if it ended early. -/
structure Exit where
  world : World
  out : List Output
  fault : Option Fault

/-- The rest of one iteration of `for _, fileSeq := range patchDef` once the
transitions have succeeded with final buffer `f1`: the environment after the
optional `ioutil.WriteFile`, or `none` when that write failed. -/
def persist (fileSeq : FileSequence) (f1 : Slice) (w : World) : Option World :=
  if fileSeq.outputFile.length > 0 then w.writeFile fileSeq.outputFile f1.data else some w

/-- Go `main`, from the loop `for _, fileSeq := range patchDef` on; reading and
unmarshalling `patch-seq.def` has produced `patchDef`. -/
def main : PatchDefinition → World → Exit
  | [], w => ⟨w, [], none⟩
  | fileSeq :: rest, w =>
    match w.readFile fileSeq.inputFile with
    | none => ⟨w, [], some (.fatal .inputRead)⟩
    | some f =>
      match (mainSequence fileSeq.inputFile 0 fileSeq.sequence f).fault with
      | some e => ⟨w, (mainSequence fileSeq.inputFile 0 fileSeq.sequence f).out, some e⟩
      | none =>
        match persist fileSeq (mainSequence fileSeq.inputFile 0 fileSeq.sequence f).buf w with
        | none =>
          ⟨w, (mainSequence fileSeq.inputFile 0 fileSeq.sequence f).out, some (.fatal .outputWrite)⟩
        | some w1 =>
          ⟨(main rest w1).world,
            (mainSequence fileSeq.inputFile 0 fileSeq.sequence f).out ++ (main rest w1).out,
            (main rest w1).fault⟩

/-! ## Notions used in the statements -/

/-- The offsets below `len(f)` at which the scan counts a match: the
`len(signature)` bytes of the backing array from there equal the signature. -/
def matchOffsetsFrom (f : Slice) (signature : List Byte) (k n : Nat) : List Nat :=
  (List.range' k n).filter
    (fun o => ((f.data ++ f.spare).drop o).take signature.length = signature)

/-- The offsets at which `identifySignatureOffset` counts a match. -/
def matchOffsets (f : Slice) (signature : List Byte) : List Nat :=
  matchOffsetsFrom f signature 0 f.len

/-- An environment with two readable input files, used to instantiate the
statements about `main`. -/
def demoWorld : World :=
  ⟨fun p =>
      if p = ascii "a.bin" then some [1, 2]
      else if p = ascii "in.bin" then some [0, 0, 0, 0xAA, 0, 0, 0, 0xAA]
      else none,
    fun _ => [0, 0], fun _ => true⟩

/-- The environment `demoWorld` after `a.out` has been written. -/
def demoWorldAfter : World :=
  ⟨fun p => if p = ascii "a.out" then some [5, 2] else demoWorld.files p,
    fun _ => [0, 0], fun _ => true⟩

/-- ASCII lower-casing of one byte (`A`..`Z` become `a`..`z`). -/
def toLowerByte (c : Byte) : Byte := if 0x41 ≤ c ∧ c ≤ 0x5A then c + 0x20 else c

/-- A string converted to lower case, byte by byte. -/
def toLower (s : GoString) : GoString := s.map toLowerByte

/-! ## Evaluation on small inputs -/

example : identifySignatureOffset (Slice.ofList [1, 2, 3, 4]) [2, 3] = .ok (1, true) := by decide
example : identifySignatureOffset (Slice.ofList [1, 2, 3, 4]) [5] = .ok (-1, false) := by decide
example : identifySignatureOffset (Slice.ofList []) [] = .ok (-1, false) := by decide
example : identifySignatureOffset (Slice.ofList [1]) [] = .error (.panic .indexOutOfRange) := by
  decide
example : identifySignatureOffset ⟨[0x41, 0x41, 0x41], [0]⟩ (ascii "AA") =
    .error (.fatal .multipleMatches) := by decide
example : applyPatch (Slice.ofList [1, 2, 3, 4]) 1 [7, 8] = (Slice.ofList [1, 7, 8, 4], none) := by
  decide
example : applyPatch (Slice.ofList [1, 2, 3, 4]) (-1) [7, 8] =
    (Slice.ofList [1, 2, 3, 4], some (.panic .indexOutOfRange)) := by decide
example : hexDecodeString (ascii "DEADbeef") = .ok [0xDE, 0xAD, 0xBE, 0xEF] := by decide
example : hexDecodeString (ascii "DEADbee") = .error .errLength := by decide
example : hexDecodeString (ascii "DEADbez") = .error (.invalidByte 0x7a) := by decide
example : hexEncodeToString [0xDE, 0xAD, 0xBE, 0xEF] = ascii "deadbeef" := by decide

/-! ## `applyPatch`: auxiliary facts -/

theorem applyPatchFrom_ok (o : Nat) : ∀ (rest : List Byte) (i : Nat) (f : Slice),
    o + i + rest.length ≤ f.len →
    ∃ f1, applyPatchFrom (o : Int) i rest f = (f1, none) ∧ f1.spare = f.spare ∧
      f1.data.length = f.data.length ∧
      ∀ j, f1.data[j]? =
        if o + i ≤ j ∧ j < o + i + rest.length then rest[j - (o + i)]? else f.data[j]? := by
  intro rest
  induction rest with
  | nil =>
    intro i f _
    refine ⟨f, rfl, rfl, rfl, ?_⟩
    intro j
    have : ¬ (o + i ≤ j ∧ j < o + i + ([] : List Byte).length) := by simp
    rw [if_neg this]
  | cons b rest ih =>
    intro i f h
    simp only [List.length_cons, Slice.len] at h
    have hidx : ((o : Int) + (i : Int)).toNat = o + i := by omega
    have hcond : 0 ≤ (o : Int) + (i : Int) ∧ (o : Int) + (i : Int) < (f.len : Int) := by
      simp only [Slice.len]; omega
    have hlen : (f.set (o + i) b).len = f.len := by simp [Slice.set, Slice.len]
    obtain ⟨f1, h1, h2, h3, h4⟩ := ih (i + 1) (f.set (o + i) b) (by rw [hlen]; simp only [Slice.len]; omega)
    refine ⟨f1, ?_, ?_, ?_, ?_⟩
    · simp only [applyPatchFrom, if_pos hcond, hidx]; exact h1
    · rw [h2]; rfl
    · rw [h3]; simp [Slice.set]
    · intro j
      rw [h4 j]
      simp only [Slice.set, List.length_cons]
      by_cases hj : o + i = j
      · subst hj
        have hn : ¬ (o + (i + 1) ≤ o + i ∧ o + i < o + (i + 1) + rest.length) := by omega
        have hp : o + i ≤ o + i ∧ o + i < o + i + (rest.length + 1) := by omega
        rw [if_neg hn, if_pos hp]
        simp [List.getElem?_set]
        omega
      · by_cases hr : o + (i + 1) ≤ j ∧ j < o + (i + 1) + rest.length
        · have hp : o + i ≤ j ∧ j < o + i + (rest.length + 1) := by omega
          rw [if_pos hr, if_pos hp]
          have : j - (o + i) = (j - (o + (i + 1))) + 1 := by omega
          rw [this, List.getElem?_cons_succ]
        · have hp : ¬ (o + i ≤ j ∧ j < o + i + (rest.length + 1)) := by omega
          rw [if_neg hr, if_neg hp]
          rw [List.getElem?_set_ne hj]

/-! ## `identifySignatureOffset`: auxiliary facts -/

theorem getLast?_getD_cons (a x : Nat) (l : List Nat) :
    ((a :: l).getLast?).getD x = (l.getLast?).getD a := by
  rw [List.getLast?_cons]
  rfl

theorem drop_backing (f : Slice) (pre rest : List Byte) (b : Byte)
    (hdata : f.data = pre ++ b :: rest) :
    (f.data ++ f.spare).drop pre.length = b :: (rest ++ f.spare) := by
  rw [hdata, List.append_assoc, List.drop_left']
  · rfl
  · rfl

theorem scan_ok_counts (f : Slice) (s0 : Byte) (tl : List Byte) : ∀ (rest pre : List Byte)
    (st st1 : ScanState), f.data = pre ++ rest → st.offsetIndex = pre.length →
    scan f (s0 :: tl) rest st = .ok st1 →
    st1.matchCount = st.matchCount + (matchOffsetsFrom f (s0 :: tl) pre.length rest.length).length ∧
    st1.offsetIdentified =
      ((matchOffsetsFrom f (s0 :: tl) pre.length rest.length).getLast?).getD st.offsetIdentified := by
  intro rest
  induction rest with
  | nil =>
    intro pre st st1 _ _ h
    simp only [scan, Except.ok.injEq] at h
    subst h
    simp [matchOffsetsFrom]
  | cons b rest ih =>
    intro pre st st1 hdata hidx h
    have hdata1 : f.data = (pre ++ [b]) ++ rest := by rw [hdata]; simp
    have hlen1 : (pre ++ [b]).length = pre.length + 1 := by simp
    have hdrop := drop_backing f pre rest b hdata
    have hrange : matchOffsetsFrom f (s0 :: tl) pre.length (b :: rest).length =
        if ((f.data ++ f.spare).drop pre.length).take (s0 :: tl).length = s0 :: tl then
          pre.length :: matchOffsetsFrom f (s0 :: tl) (pre.length + 1) rest.length
        else matchOffsetsFrom f (s0 :: tl) (pre.length + 1) rest.length := by
      simp only [matchOffsetsFrom, List.length_cons, List.range'_succ, List.filter_cons,
        decide_eq_true_eq]
    unfold scan at h
    simp only at h
    by_cases hb : b = s0
    · rw [if_pos hb] at h
      cases hsl : f.slice st.offsetIndex (st.offsetIndex + (s0 :: tl).length) with
      | none => rw [hsl] at h; simp at h
      | some remaining =>
        rw [hsl] at h
        simp only at h
        have hrem : remaining = ((f.data ++ f.spare).drop pre.length).take (s0 :: tl).length := by
          unfold Slice.slice at hsl
          split at hsl
          · simp only [Option.some.injEq] at hsl
            rw [← hsl, hidx]
            congr 1
            omega
          · simp at hsl
        by_cases hm : s0 :: tl = remaining
        · rw [if_pos hm] at h
          have := ih (pre ++ [b]) _ st1 hdata1 (by simp [hidx]) h
          rw [hlen1] at this
          rw [hrange, if_pos (by rw [← hrem]; exact hm.symm)]
          simp only [List.length_cons, getLast?_getD_cons]
          simp only at this
          rw [hidx] at this
          refine ⟨by omega, this.2⟩
        · rw [if_neg hm] at h
          have := ih (pre ++ [b]) _ st1 hdata1 (by simp [hidx]) h
          rw [hlen1] at this
          rw [hrange, if_neg (by rw [← hrem]; exact fun h1 => hm h1.symm)]
          exact this
    · rw [if_neg hb] at h
      have := ih (pre ++ [b]) _ st1 hdata1 (by simp [hidx]) h
      rw [hlen1] at this
      rw [hrange, if_neg (by
        rw [hdrop]
        simp only [List.length_cons, List.take_succ_cons]
        intro h1
        exact hb (List.cons.inj h1).1)]
      exact this


theorem getElem?_backing (f : Slice) (pre rest : List Byte) (b : Byte)
    (hdata : f.data = pre ++ b :: rest) : f.data[pre.length]? = some b := by
  rw [hdata, List.getElem?_append_right (Nat.le_refl _), Nat.sub_self, List.getElem?_cons_zero]

theorem scan_ok_of_candidates_in_cap (f : Slice) (s0 : Byte) (tl : List Byte) :
    ∀ (rest pre : List Byte) (st : ScanState), f.data = pre ++ rest →
    st.offsetIndex = pre.length →
    (∀ o, pre.length ≤ o → f.data[o]? = some s0 → o + (s0 :: tl).length ≤ f.cap) →
    ∃ st1, scan f (s0 :: tl) rest st = .ok st1 := by
  intro rest
  induction rest with
  | nil => intro pre st _ _ _; exact ⟨st, rfl⟩
  | cons b rest ih =>
    intro pre st hdata hidx hcap
    have hdata1 : f.data = (pre ++ [b]) ++ rest := by rw [hdata]; simp
    have hcap1 : ∀ o, (pre ++ [b]).length ≤ o → f.data[o]? = some s0 →
        o + (s0 :: tl).length ≤ f.cap := by
      intro o ho
      apply hcap
      simp at ho
      omega
    unfold scan
    simp only
    by_cases hb : b = s0
    · rw [if_pos hb]
      have hin := hcap pre.length (Nat.le_refl _) (by rw [getElem?_backing f pre rest b hdata, hb])
      have hsl : f.slice st.offsetIndex (st.offsetIndex + (s0 :: tl).length) =
          some (((f.data ++ f.spare).drop st.offsetIndex).take
            (st.offsetIndex + (s0 :: tl).length - st.offsetIndex)) := by
        unfold Slice.slice
        rw [if_pos ⟨by omega, by rw [hidx]; exact hin⟩]
      rw [hsl]
      simp only
      split
      · exact ih (pre ++ [b]) _ hdata1 (by simp [hidx]) hcap1
      · exact ih (pre ++ [b]) _ hdata1 (by simp [hidx]) hcap1
    · rw [if_neg hb]
      exact ih (pre ++ [b]) _ hdata1 (by simp [hidx]) hcap1

theorem scan_panics_of_candidate_beyond_cap (f : Slice) (s0 : Byte) (tl : List Byte) :
    ∀ (rest pre : List Byte) (st : ScanState) (o : Nat), f.data = pre ++ rest →
    st.offsetIndex = pre.length → pre.length ≤ o → f.data[o]? = some s0 →
    f.cap < o + (s0 :: tl).length →
    scan f (s0 :: tl) rest st = .error (.panic .sliceBoundsOutOfRange) := by
  intro rest
  induction rest with
  | nil =>
    intro pre st o hdata _ hle ho _
    rw [hdata, List.append_nil] at ho
    have : o < pre.length := by
      by_contra hc
      rw [List.getElem?_eq_none (by omega)] at ho
      cases ho
    omega
  | cons b rest ih =>
    intro pre st o hdata hidx hle ho hcap
    have hdata1 : f.data = (pre ++ [b]) ++ rest := by rw [hdata]; simp
    have hnext : ∀ st1 : ScanState, st1.offsetIndex = (pre ++ [b]).length → pre.length ≠ o →
        scan f (s0 :: tl) rest st1 = .error (.panic .sliceBoundsOutOfRange) := by
      intro st1 h1 hne
      exact ih (pre ++ [b]) st1 o hdata1 h1 (by simp; omega) ho hcap
    unfold scan
    simp only
    by_cases hb : b = s0
    · rw [if_pos hb]
      by_cases hk : pre.length = o
      · have hsl : f.slice st.offsetIndex (st.offsetIndex + (s0 :: tl).length) = none := by
          unfold Slice.slice
          rw [if_neg (by rw [hidx, hk]; omega)]
        rw [hsl]
      · cases hsl : f.slice st.offsetIndex (st.offsetIndex + (s0 :: tl).length) with
        | none => rfl
        | some remaining =>
          simp only
          split
          · exact hnext _ (by simp [hidx]) hk
          · exact hnext _ (by simp [hidx]) hk
    · rw [if_neg hb]
      have hk : pre.length ≠ o := by
        intro hk
        rw [← hk, getElem?_backing f pre rest b hdata] at ho
        exact hb (Option.some.inj ho)
      exact hnext _ (by simp [hidx]) hk

/-- A candidate whose slice expression passes `cap(f)` ends the process. -/
theorem identifySignatureOffset_panics (f : Slice) (s0 : Byte) (tl : List Byte) (o : Nat)
    (ho : f.data[o]? = some s0) (hcap : f.cap < o + (s0 :: tl).length) :
    identifySignatureOffset f (s0 :: tl) = .error (.panic .sliceBoundsOutOfRange) := by
  unfold identifySignatureOffset
  rw [scan_panics_of_candidate_beyond_cap f s0 tl f.data [] ⟨0, 0, 0⟩ o rfl rfl (Nat.zero_le _) ho
    hcap]

/-- When every candidate's slice expression stays within `cap(f)`, the result is
decided by the list of counted offsets. -/
theorem identifySignatureOffset_eq (f : Slice) (s0 : Byte) (tl : List Byte)
    (hcap : ∀ o, f.data[o]? = some s0 → o + (s0 :: tl).length ≤ f.cap) :
    identifySignatureOffset f (s0 :: tl) =
      match matchOffsets f (s0 :: tl) with
      | [] => .ok (-1, false)
      | [o] => .ok ((o : Int), true)
      | _ :: _ :: _ => .error (.fatal .multipleMatches) := by
  obtain ⟨st1, hst⟩ := scan_ok_of_candidates_in_cap f s0 tl f.data [] ⟨0, 0, 0⟩ rfl rfl
    (fun o _ h => hcap o h)
  have hc := scan_ok_counts f s0 tl f.data [] ⟨0, 0, 0⟩ st1 rfl rfl hst
  simp only [List.length_nil, Nat.zero_add] at hc
  unfold identifySignatureOffset
  rw [hst]
  simp only [matchOffsets, Slice.len]
  rcases hL : matchOffsetsFrom f (s0 :: tl) 0 f.data.length with _ | ⟨a, _ | ⟨b, l⟩⟩
  · rw [hL] at hc
    simp at hc
    simp [hc.1]
  · rw [hL] at hc
    simp at hc
    simp [hc.1, hc.2]
  · rw [hL] at hc
    simp only [List.length_cons] at hc
    have h1 : ¬ st1.matchCount = 0 := by omega
    have h2 : st1.matchCount > 1 := by omega
    simp [h1, h2]


theorem mem_matchOffsets (f : Slice) (signature : List Byte) (o : Nat) :
    o ∈ matchOffsets f signature ↔
      o < f.len ∧ ((f.data ++ f.spare).drop o).take signature.length = signature := by
  simp [matchOffsets, matchOffsetsFrom, List.mem_filter, List.mem_range']

theorem take_drop_eq_bound (A P : List Byte) (o : Nat) (h : (A.drop o).take P.length = P) :
    o + P.length ≤ A.length ∨ P = [] := by
  have hl := congrArg List.length h
  simp only [List.length_take, List.length_drop] at hl
  by_cases hP : P.length = 0
  · right; exact List.length_eq_zero.mp hP
  · left; omega

/-- With `cap(f) = len(f)` the counted offsets are the occurrences of the pattern. -/
theorem mem_matchOffsets_ofList (B : List Byte) (s0 : Byte) (tl : List Byte) (o : Nat) :
    o ∈ matchOffsets (Slice.ofList B) (s0 :: tl) ↔ occursAt B (s0 :: tl) o := by
  rw [mem_matchOffsets]
  simp only [Slice.ofList, Slice.len, List.append_nil, occursAt]
  constructor
  · rintro ⟨_, h⟩
    rcases take_drop_eq_bound B (s0 :: tl) o h with hb | hb
    · exact ⟨hb, h⟩
    · cases hb
  · rintro ⟨hb, h⟩
    simp only [List.length_cons] at hb
    exact ⟨by omega, h⟩

/-- A reported offset is the only counted one; the match lies within `cap(f)`,
not necessarily within `len(f)`. -/
theorem identifySignatureOffset_found (f : Slice) (s0 : Byte) (tl : List Byte) (o : Int)
    (h : identifySignatureOffset f (s0 :: tl) = .ok (o, true)) :
    ∃ k : Nat, o = (k : Int) ∧ matchOffsets f (s0 :: tl) = [k] ∧ k < f.len ∧
      k + (s0 :: tl).length ≤ f.cap ∧
      ((f.data ++ f.spare).drop k).take (s0 :: tl).length = s0 :: tl := by
  unfold identifySignatureOffset at h
  cases hst : scan f (s0 :: tl) f.data ⟨0, 0, 0⟩ with
  | error e => rw [hst] at h; simp at h
  | ok st1 =>
    rw [hst] at h
    simp only at h
    have hc := scan_ok_counts f s0 tl f.data [] ⟨0, 0, 0⟩ st1 rfl rfl hst
    simp only [List.length_nil, Nat.zero_add] at hc
    split at h
    · simp at h
    · split at h
      · simp at h
      · simp only [Except.ok.injEq, Prod.mk.injEq, and_true] at h
        have hmem : ∀ k, matchOffsets f (s0 :: tl) = [k] → k < f.len ∧
            k + (s0 :: tl).length ≤ f.cap ∧
            ((f.data ++ f.spare).drop k).take (s0 :: tl).length = s0 :: tl := by
          intro k hk
          have := (mem_matchOffsets f (s0 :: tl) k).mp (by rw [hk]; simp)
          refine ⟨this.1, ?_, this.2⟩
          rcases take_drop_eq_bound _ _ _ this.2 with hb | hb
          · simpa [Slice.cap] using hb
          · cases hb
        rcases hL : matchOffsetsFrom f (s0 :: tl) 0 f.data.length with _ | ⟨a, _ | ⟨b, l⟩⟩
        · rw [hL] at hc; simp at hc; omega
        · rw [hL] at hc
          simp at hc
          exact ⟨a, by rw [← h, hc.2], hL, hmem a hL⟩
        · rw [hL] at hc
          simp only [List.length_cons] at hc
          omega

/-! ## `main`: auxiliary facts -/

theorem hexDecodeString_length : ∀ (n : Nat) (s : GoString) (b : List Byte), s.length ≤ n →
    hexDecodeString s = .ok b → s.length = 2 * b.length := by
  intro n
  induction n with
  | zero =>
    intro s b hn h
    have : s = [] := List.length_eq_zero.mp (by omega)
    subst this
    simp [hexDecodeString] at h
    subst h
    rfl
  | succ n ih =>
    intro s b hn h
    match s, h with
    | [], h =>
      simp [hexDecodeString] at h
      subst h
      rfl
    | [c], h =>
      simp only [hexDecodeString] at h
      split at h <;> simp at h
    | p :: q :: rest, h =>
      simp only [hexDecodeString] at h
      split at h
      · simp at h
      · split at h
        · simp at h
        · split at h
          · simp at h
          · rename_i bs hbs
            simp only [Except.ok.injEq] at h
            subst h
            have := ih rest bs (by simp only [List.length_cons] at hn; omega) hbs
            simp only [List.length_cons]
            omega

theorem mainSequence_cons (inputFile : GoString) (i : Nat) (seq : SequenceEntry)
    (rest : List SequenceEntry) (f : Slice) :
    mainSequence inputFile i (seq :: rest) f =
      match (mainTransition inputFile i seq f).fault with
      | some e =>
        ⟨(mainTransition inputFile i seq f).out, (mainTransition inputFile i seq f).buf, some e⟩
      | none =>
        ⟨(mainTransition inputFile i seq f).out ++
            (mainSequence inputFile (i + 1) rest (mainTransition inputFile i seq f).buf).out,
          (mainSequence inputFile (i + 1) rest (mainTransition inputFile i seq f).buf).buf,
          (mainSequence inputFile (i + 1) rest (mainTransition inputFile i seq f).buf).fault⟩ := by
  rw [mainSequence]

theorem mainSequence_append_fault (inputFile : GoString) : ∀ (ts1 ts2 : List SequenceEntry)
    (i : Nat) (f : Slice) (e : Fault), (mainSequence inputFile i ts1 f).fault = some e →
    mainSequence inputFile i (ts1 ++ ts2) f = mainSequence inputFile i ts1 f := by
  intro ts1
  induction ts1 with
  | nil => intro ts2 i f e h; simp [mainSequence] at h
  | cons t ts1 ih =>
    intro ts2 i f e h
    rw [List.cons_append, mainSequence_cons, mainSequence_cons]
    rw [mainSequence_cons] at h
    cases hstep : (mainTransition inputFile i t f).fault with
    | some e1 => rfl
    | none =>
      rw [hstep] at h
      simp only at h ⊢
      rw [ih ts2 (i + 1) _ e h]

theorem mainSequence_append_ok (inputFile : GoString) : ∀ (ts1 ts2 : List SequenceEntry)
    (i : Nat) (f : Slice), (mainSequence inputFile i ts1 f).fault = none →
    mainSequence inputFile i (ts1 ++ ts2) f =
      ⟨(mainSequence inputFile i ts1 f).out ++
          (mainSequence inputFile (i + ts1.length) ts2 (mainSequence inputFile i ts1 f).buf).out,
        (mainSequence inputFile (i + ts1.length) ts2 (mainSequence inputFile i ts1 f).buf).buf,
        (mainSequence inputFile (i + ts1.length) ts2 (mainSequence inputFile i ts1 f).buf).fault⟩ := by
  intro ts1
  induction ts1 with
  | nil => intro ts2 i f _; simp [mainSequence]
  | cons t ts1 ih =>
    intro ts2 i f h
    rw [List.cons_append, mainSequence_cons, mainSequence_cons]
    rw [mainSequence_cons] at h
    cases hstep : (mainTransition inputFile i t f).fault with
    | some e1 => rw [hstep] at h; simp at h
    | none =>
      rw [hstep] at h
      simp only at h ⊢
      rw [ih ts2 (i + 1) _ h]
      have : i + (t :: ts1).length = i + 1 + ts1.length := by simp only [List.length_cons]; omega
      rw [this, List.append_assoc]


theorem scan_error_is_panic (f : Slice) (signature : List Byte) : ∀ (rest : List Byte)
    (st : ScanState) (e : Fault), scan f signature rest st = .error e → ∃ p, e = .panic p := by
  intro rest
  induction rest with
  | nil => intro st e h; simp [scan] at h
  | cons b rest ih =>
    intro st e h
    unfold scan at h
    split at h
    · exact ⟨_, (Except.error.inj h).symm⟩
    · split at h
      · split at h
        · exact ⟨_, (Except.error.inj h).symm⟩
        · split at h
          · exact ih _ e h
          · exact ih _ e h
      · exact ih _ e h

theorem identifySignatureOffset_error (f : Slice) (signature : List Byte) (e : Fault)
    (h : identifySignatureOffset f signature = .error e) :
    e = .fatal .multipleMatches ∨ ∃ p, e = .panic p := by
  unfold identifySignatureOffset at h
  split at h
  · rename_i e1 hscan
    right
    obtain ⟨p, hp⟩ := scan_error_is_panic f signature _ _ _ hscan
    exact ⟨p, by rw [← Except.error.inj h, hp]⟩
  · split at h
    · simp at h
    · split at h
      · left; exact (Except.error.inj h).symm
      · simp at h

theorem applyPatchFrom_fault (offset : Int) : ∀ (patch : List Byte) (i : Nat) (f : Slice)
    (e : Fault), (applyPatchFrom offset i patch f).2 = some e → e = .panic .indexOutOfRange := by
  intro patch
  induction patch with
  | nil => intro i f e h; simp [applyPatchFrom] at h
  | cons b rest ih =>
    intro i f e h
    unfold applyPatchFrom at h
    split at h
    · exact ih _ _ e h
    · simp at h; exact h.symm

/-- A `log.Fatal` inside a transition leaves the buffer as it was, and is one of
the four messages of the transition. -/
theorem mainTransition_fatal_keeps_buffer (inputFile : GoString) (i : Nat) (seq : SequenceEntry)
    (f : Slice) (m : Fatal)
    (h : (mainTransition inputFile i seq f).fault = some (.fatal m)) :
    (mainTransition inputFile i seq f).buf = f ∧
      ((m = .sizeMismatch ∧ seq.transition.signature.length ≠ seq.transition.patch.length) ∨
        (∃ e, m = .hexDecode e) ∨ m = .signatureNotFound ∨ m = .multipleMatches) := by
  unfold mainTransition at h ⊢
  split
  · rename_i hne
    rw [if_pos hne] at h
    simp at h
    exact ⟨rfl, Or.inl ⟨h.symm, hne⟩⟩
  · rename_i hne
    rw [if_neg hne] at h
    cases hsig : decodeHexString seq.transition.signature with
    | error e =>
      rw [hsig] at h
      simp only at h ⊢
      refine ⟨trivial, ?_⟩
      unfold decodeHexString at hsig
      split at hsig
      · rename_i e1 _
        have h1 := Except.error.inj hsig
        rw [← h1] at h
        simp at h
        exact Or.inr (Or.inl ⟨e1, h.symm⟩)
      · simp at hsig
    | ok decodedString =>
      rw [hsig] at h
      simp only at h ⊢
      cases hloc : identifySignatureOffset f decodedString with
      | error e =>
        rw [hloc] at h
        simp only at h ⊢
        refine ⟨trivial, ?_⟩
        rcases identifySignatureOffset_error f decodedString e hloc with h1 | ⟨p, h1⟩
        · rw [h1] at h; simp at h
          exact Or.inr (Or.inr (Or.inr h.symm))
        · rw [h1] at h; simp at h
      | ok r =>
        obtain ⟨offset, found⟩ := r
        rw [hloc] at h
        simp only at h ⊢
        cases found with
        | false =>
          simp at h ⊢
          exact Or.inr (Or.inr (Or.inl h.symm))
        | true =>
          simp only [if_true] at h ⊢
          cases hpat : decodeHexString seq.transition.patch with
          | error e =>
            rw [hpat] at h
            simp only at h ⊢
            refine ⟨trivial, ?_⟩
            unfold decodeHexString at hpat
            split at hpat
            · rename_i e1 _
              have h1 := Except.error.inj hpat
              rw [← h1] at h
              simp at h
              exact Or.inr (Or.inl ⟨e1, h.symm⟩)
            · simp at hpat
          | ok decodedPatch =>
            rw [hpat] at h
            simp only at h ⊢
            rcases hap : applyPatch f offset decodedPatch with ⟨f1, _ | e⟩
            · rw [hap] at h; simp at h
            · rw [hap] at h
              simp only at h
              have := applyPatchFrom_fault offset decodedPatch 0 f e (by
                have : (applyPatch f offset decodedPatch).2 = some e := by rw [hap]
                exact this)
              rw [this] at h
              simp at h


theorem main_cons (fileSeq : FileSequence) (rest : PatchDefinition) (w : World) :
    main (fileSeq :: rest) w =
      match w.readFile fileSeq.inputFile with
      | none => ⟨w, [], some (.fatal .inputRead)⟩
      | some f =>
        match (mainSequence fileSeq.inputFile 0 fileSeq.sequence f).fault with
        | some e => ⟨w, (mainSequence fileSeq.inputFile 0 fileSeq.sequence f).out, some e⟩
        | none =>
          match persist fileSeq (mainSequence fileSeq.inputFile 0 fileSeq.sequence f).buf w with
          | none =>
            ⟨w, (mainSequence fileSeq.inputFile 0 fileSeq.sequence f).out,
              some (.fatal .outputWrite)⟩
          | some w1 =>
            ⟨(main rest w1).world,
              (mainSequence fileSeq.inputFile 0 fileSeq.sequence f).out ++ (main rest w1).out,
              (main rest w1).fault⟩ := by
  rw [main]

theorem main_append_ok : ∀ (pre post : PatchDefinition) (w : World),
    (main pre w).fault = none →
    main (pre ++ post) w =
      ⟨(main post (main pre w).world).world,
        (main pre w).out ++ (main post (main pre w).world).out,
        (main post (main pre w).world).fault⟩ := by
  intro pre
  induction pre with
  | nil => intro post w _; simp [main]
  | cons fs pre ih =>
    intro post w h
    rw [List.cons_append, main_cons]
    rw [main_cons] at h ⊢
    cases hread : w.readFile fs.inputFile with
    | none => rw [hread] at h; simp at h
    | some f =>
      rw [hread] at h
      simp only at h ⊢
      cases hseq : (mainSequence fs.inputFile 0 fs.sequence f).fault with
      | some e => rw [hseq] at h; simp at h
      | none =>
        rw [hseq] at h
        simp only at h ⊢
        cases hper : persist fs (mainSequence fs.inputFile 0 fs.sequence f).buf w with
        | none => rw [hper] at h; simp at h
        | some w1 =>
          rw [hper] at h
          simp only at h ⊢
          rw [ih post w1 h, List.append_assoc]

/-- The transition after a fault-free stretch `ts1` works on the buffer that
stretch produced. -/
theorem mainSequence_append_cons (inputFile : GoString) (ts1 : List SequenceEntry)
    (seq : SequenceEntry) (ts2 : List SequenceEntry) (f f1 : Slice) (out1 : List Output)
    (h : mainSequence inputFile 0 ts1 f = ⟨out1, f1, none⟩) :
    mainSequence inputFile 0 (ts1 ++ seq :: ts2) f =
      match (mainTransition inputFile ts1.length seq f1).fault with
      | some e =>
        ⟨out1 ++ (mainTransition inputFile ts1.length seq f1).out,
          (mainTransition inputFile ts1.length seq f1).buf, some e⟩
      | none =>
        ⟨out1 ++ ((mainTransition inputFile ts1.length seq f1).out ++
            (mainSequence inputFile (ts1.length + 1) ts2
              (mainTransition inputFile ts1.length seq f1).buf).out),
          (mainSequence inputFile (ts1.length + 1) ts2
            (mainTransition inputFile ts1.length seq f1).buf).buf,
          (mainSequence inputFile (ts1.length + 1) ts2
            (mainTransition inputFile ts1.length seq f1).buf).fault⟩ := by
  have hf : (mainSequence inputFile 0 ts1 f).fault = none := by rw [h]
  rw [mainSequence_append_ok inputFile ts1 (seq :: ts2) 0 f hf, h]
  simp only [Nat.zero_add]
  rw [mainSequence_cons]
  cases (mainTransition inputFile ts1.length seq f1).fault <;> rfl

/-! ## Buffer length, hex round trip, patching back: auxiliary facts -/

theorem applyPatchFrom_len (offset : Int) : ∀ (patch : List Byte) (i : Nat) (f : Slice),
    (applyPatchFrom offset i patch f).1.len = f.len ∧
      (applyPatchFrom offset i patch f).1.spare = f.spare := by
  intro patch
  induction patch with
  | nil => intro i f; exact ⟨rfl, rfl⟩
  | cons b rest ih =>
    intro i f
    unfold applyPatchFrom
    split
    · have := ih (i + 1) (f.set (offset + (i : Int)).toNat b)
      refine ⟨this.1.trans ?_, this.2.trans rfl⟩
      simp [Slice.set, Slice.len]
    · exact ⟨rfl, rfl⟩

theorem mainTransition_len (inputFile : GoString) (i : Nat) (seq : SequenceEntry) (f : Slice) :
    (mainTransition inputFile i seq f).buf.len = f.len ∧
      (mainTransition inputFile i seq f).buf.spare = f.spare := by
  unfold mainTransition
  split
  · exact ⟨rfl, rfl⟩
  · cases decodeHexString seq.transition.signature with
    | error e => exact ⟨rfl, rfl⟩
    | ok decodedString =>
      simp only
      cases identifySignatureOffset f decodedString with
      | error e => exact ⟨rfl, rfl⟩
      | ok r =>
        obtain ⟨offset, found⟩ := r
        simp only
        cases found with
        | false => exact ⟨rfl, rfl⟩
        | true =>
          simp only [if_true]
          cases decodeHexString seq.transition.patch with
          | error e => exact ⟨rfl, rfl⟩
          | ok decodedPatch =>
            simp only
            have h := applyPatchFrom_len offset decodedPatch 0 f
            rcases hap : applyPatch f offset decodedPatch with ⟨f1, _ | e⟩
            · have h1 : (applyPatchFrom offset 0 decodedPatch f).1 = f1 := congrArg Prod.fst hap
              rw [← h1]; exact h
            · have h1 : (applyPatchFrom offset 0 decodedPatch f).1 = f1 := congrArg Prod.fst hap
              rw [← h1]; exact h

theorem mainSequence_len (inputFile : GoString) : ∀ (ts : List SequenceEntry) (i : Nat)
    (f : Slice), (mainSequence inputFile i ts f).buf.len = f.len ∧
      (mainSequence inputFile i ts f).buf.spare = f.spare := by
  intro ts
  induction ts with
  | nil => intro i f; exact ⟨rfl, rfl⟩
  | cons t ts ih =>
    intro i f
    rw [mainSequence_cons]
    have h1 := mainTransition_len inputFile i t f
    cases (mainTransition inputFile i t f).fault with
    | some e => exact h1
    | none =>
      have h2 := ih (i + 1) (mainTransition inputFile i t f).buf
      exact ⟨h2.1.trans h1.1, h2.2.trans h1.2⟩

theorem main_single_ok (fileSeq : FileSequence) (w : World)
    (h : (main [fileSeq] w).fault = none) :
    ∃ f w1, w.readFile fileSeq.inputFile = some f ∧
      (mainSequence fileSeq.inputFile 0 fileSeq.sequence f).fault = none ∧
      persist fileSeq (mainSequence fileSeq.inputFile 0 fileSeq.sequence f).buf w = some w1 ∧
      (main [fileSeq] w).world = w1 := by
  rw [main_cons] at h ⊢
  cases hread : w.readFile fileSeq.inputFile with
  | none => rw [hread] at h; simp at h
  | some f =>
    rw [hread] at h
    simp only at h ⊢
    cases hseq : (mainSequence fileSeq.inputFile 0 fileSeq.sequence f).fault with
    | some e => rw [hseq] at h; simp at h
    | none =>
      rw [hseq] at h
      simp only at h ⊢
      cases hper : persist fileSeq (mainSequence fileSeq.inputFile 0 fileSeq.sequence f).buf w with
      | none => rw [hper] at h; simp at h
      | some w1 =>
        refine ⟨f, w1, rfl, ?_, ?_, ?_⟩
        · exact hseq
        · exact hper
        · simp [main]

set_option maxRecDepth 100000 in
theorem fromHexChar_hextable_aux : ∀ c : Byte,
    (match fromHexChar c with
     | none => true
     | some a => decide (a.val < 16 ∧ hextable.getD a.val 0 = toLowerByte c)) = true := by
  decide

theorem fromHexChar_hextable (c a : Byte) (h : fromHexChar c = some a) :
    a.val < 16 ∧ hextable.getD a.val 0 = toLowerByte c := by
  have := fromHexChar_hextable_aux c
  rw [h] at this
  simpa using this


set_option maxRecDepth 100000 in
theorem nibbles_of_pair_aux : ∀ a b : Fin 16,
    (((Fin.castLE (by decide) a : Byte) <<< 4) ||| (Fin.castLE (by decide) b : Byte)) >>> 4 =
      (Fin.castLE (by decide) a : Byte) ∧
    (((Fin.castLE (by decide) a : Byte) <<< 4) ||| (Fin.castLE (by decide) b : Byte)) &&& 0x0f =
      (Fin.castLE (by decide) b : Byte) := by
  decide

theorem nibbles_of_pair (a b : Byte) (ha : a.val < 16) (hb : b.val < 16) :
    ((a <<< 4) ||| b) >>> 4 = a ∧ ((a <<< 4) ||| b) &&& 0x0f = b :=
  nibbles_of_pair_aux ⟨a.val, ha⟩ ⟨b.val, hb⟩

set_option maxRecDepth 100000 in
theorem hextable_fromHexChar : ∀ v : Byte,
    fromHexChar (hextable.getD (v >>> 4).val 0) = some (v >>> 4) ∧
    fromHexChar (hextable.getD (v &&& 0x0f).val 0) = some (v &&& 0x0f) ∧
    ((v >>> 4) <<< 4) ||| (v &&& 0x0f) = v := by
  decide

theorem hexDecodeString_cons_cons (p q : Byte) (rest : GoString) :
    hexDecodeString (p :: q :: rest) =
      match fromHexChar p with
      | none => .error (.invalidByte p)
      | some a =>
        match fromHexChar q with
        | none => .error (.invalidByte q)
        | some b =>
          match hexDecodeString rest with
          | .error e => .error e
          | .ok bs => .ok (((a <<< 4) ||| b) :: bs) := by
  rw [hexDecodeString]

theorem hexEncode_of_decode : ∀ (n : Nat) (s : GoString) (b : List Byte), s.length ≤ n →
    hexDecodeString s = .ok b → hexEncodeToString b = toLower s := by
  intro n
  induction n with
  | zero =>
    intro s b hn h
    have : s = [] := List.length_eq_zero.mp (by omega)
    subst this
    simp [hexDecodeString] at h
    subst h
    rfl
  | succ n ih =>
    intro s b hn h
    match s, h with
    | [], h =>
      simp [hexDecodeString] at h
      subst h
      rfl
    | [c], h =>
      simp only [hexDecodeString] at h
      split at h <;> simp at h
    | p :: q :: rest, h =>
      rw [hexDecodeString_cons_cons] at h
      cases hp : fromHexChar p with
      | none => rw [hp] at h; simp at h
      | some a =>
        rw [hp] at h
        simp only at h
        cases hq : fromHexChar q with
        | none => rw [hq] at h; simp at h
        | some c =>
          rw [hq] at h
          simp only at h
          cases hr : hexDecodeString rest with
          | error e => rw [hr] at h; simp at h
          | ok bs =>
            rw [hr] at h
            simp only [Except.ok.injEq] at h
            subst h
            have h1 := fromHexChar_hextable p a hp
            have h2 := fromHexChar_hextable q c hq
            have h3 := nibbles_of_pair a c h1.1 h2.1
            have h4 := ih rest bs (by simp only [List.length_cons] at hn; omega) hr
            simp only [hexEncodeToString, h3.1, h3.2, h1.2, h2.2, h4, toLower, List.map_cons]

theorem hexDecode_of_encode : ∀ b : List Byte, hexDecodeString (hexEncodeToString b) = .ok b := by
  intro b
  induction b with
  | nil => rfl
  | cons v rest ih =>
    have h := hextable_fromHexChar v
    simp only [hexEncodeToString]
    rw [hexDecodeString_cons_cons, h.1, h.2.1, ih]
    simp only [h.2.2]

theorem decodeHexString_ok_iff (s : GoString) (b : List Byte) :
    decodeHexString s = .ok b ↔ hexDecodeString s = .ok b := by
  unfold decodeHexString
  cases hexDecodeString s with
  | error e => simp
  | ok d => simp

theorem hexDecodeString_accepts : ∀ (n : Nat) (s : GoString), s.length ≤ n →
    ((∃ b, hexDecodeString s = .ok b) ↔
      s.length % 2 = 0 ∧ ∀ c ∈ s, (fromHexChar c).isSome = true) := by
  intro n
  induction n with
  | zero =>
    intro s hn
    have : s = [] := List.length_eq_zero.mp (by omega)
    subst this
    simp [hexDecodeString]
  | succ n ih =>
    intro s hn
    match s with
    | [] => simp [hexDecodeString]
    | [c] =>
      simp only [hexDecodeString]
      constructor
      · rintro ⟨b, h⟩
        split at h <;> simp at h
      · rintro ⟨h, _⟩
        simp at h
    | p :: q :: rest =>
      have hrec := ih rest (by simp only [List.length_cons] at hn; omega)
      rw [hexDecodeString_cons_cons]
      have hl : (p :: q :: rest).length % 2 = rest.length % 2 := by
        simp only [List.length_cons]; omega
      rw [hl]
      cases hp : fromHexChar p with
      | none =>
        simp only
        constructor
        · rintro ⟨b, h⟩; cases h
        · rintro ⟨_, h⟩
          have := h p (by simp)
          rw [hp] at this
          cases this
      | some a =>
        simp only
        cases hq : fromHexChar q with
        | none =>
          simp only
          constructor
          · rintro ⟨b, h⟩; cases h
          · rintro ⟨_, h⟩
            have := h q (by simp)
            rw [hq] at this
            cases this
        | some c =>
          simp only
          cases hr : hexDecodeString rest with
          | error e =>
            rw [hr] at hrec
            simp only
            constructor
            · rintro ⟨b, h⟩; cases h
            · rintro ⟨h1, h2⟩
              obtain ⟨b, hb⟩ := hrec.mpr ⟨h1, fun x hx => h2 x (by simp [hx])⟩
              cases hb
          | ok bs =>
            rw [hr] at hrec
            simp only
            constructor
            · intro _
              have := hrec.mp ⟨bs, rfl⟩
              refine ⟨this.1, ?_⟩
              intro x hx
              simp only [List.mem_cons] at hx
              rcases hx with hx | hx | hx
              · rw [hx, hp]; rfl
              · rw [hx, hq]; rfl
              · exact this.2 x hx
            · intro _
              exact ⟨_, rfl⟩

theorem applyPatchFrom_none_bound (k : Nat) : ∀ (rest : List Byte) (i : Nat) (f : Slice),
    (applyPatchFrom (k : Int) i rest f).2 = none → rest ≠ [] → k + i + rest.length ≤ f.len := by
  intro rest
  induction rest with
  | nil => intro i f _ h; exact absurd rfl h
  | cons b rest ih =>
    intro i f h _
    unfold applyPatchFrom at h
    split at h
    · rename_i hc
      have hlen : (f.set ((k : Int) + (i : Int)).toNat b).len = f.len := by
        simp [Slice.set, Slice.len]
      cases rest with
      | nil => simp only [List.length_cons, List.length_nil]; omega
      | cons c rest1 =>
        have := ih (i + 1) _ h (by simp)
        rw [hlen] at this
        simp only [List.length_cons] at this ⊢
        omega
    · simp at h

theorem window_getElem? (A : List Byte) (k n j : Nat) :
    ((A.drop k).take n)[j]? = if j < n then A[k + j]? else none := by
  rw [List.getElem?_take]
  split
  · rw [List.getElem?_drop]
  · rfl

theorem window_eq_iff (A S : List Byte) (k : Nat) :
    (A.drop k).take S.length = S ↔ ∀ j, j < S.length → A[k + j]? = S[j]? := by
  constructor
  · intro h j hj
    have := window_getElem? A k S.length j
    rw [h, if_pos hj] at this
    exact this.symm
  · intro h
    apply List.ext_getElem?
    intro j
    rw [window_getElem?]
    split
    · rename_i hj; exact h j hj
    · rename_i hj
      rw [List.getElem?_eq_none (by omega)]

/-- The outcome of `applyPatch` when it returns: the bytes of the patch in
`[k, k + len(patch))`, the old bytes elsewhere. -/
theorem applyPatch_returns (f f1 : Slice) (k : Nat) (p : List Byte) (hp : p ≠ [])
    (h : applyPatch f (k : Int) p = (f1, none)) :
    k + p.length ≤ f.len ∧ f1.spare = f.spare ∧ f1.data.length = f.data.length ∧
      ∀ j, f1.data[j]? = if k ≤ j ∧ j < k + p.length then p[j - k]? else f.data[j]? := by
  have hb := applyPatchFrom_none_bound k p 0 f (by
    have : (applyPatch f (k : Int) p).2 = none := by rw [h]
    exact this) hp
  obtain ⟨f2, h1, h2, h3, h4⟩ := applyPatchFrom_ok k p 0 f hb
  have : f2 = f1 := by
    have e : applyPatchFrom (k : Int) 0 p f = (f1, none) := h
    rw [h1] at e
    exact congrArg Prod.fst e
  subst this
  refine ⟨by omega, h2, h3, ?_⟩
  intro j
  have := h4 j
  simpa using this

theorem mainTransition_ok (inputFile : GoString) (i : Nat) (seq : SequenceEntry) (f : Slice)
    (S P : List Byte) (hS : hexDecodeString seq.transition.signature = .ok S)
    (hP : hexDecodeString seq.transition.patch = .ok P)
    (h : (mainTransition inputFile i seq f).fault = none) :
    ∃ o, identifySignatureOffset f S = .ok (o, true) ∧
      applyPatch f o P = ((mainTransition inputFile i seq f).buf, none) := by
  unfold mainTransition at h ⊢
  split at h
  · simp at h
  · rename_i hne
    rw [if_neg hne]
    have hS1 : decodeHexString seq.transition.signature = .ok S := by
      simp [decodeHexString, hS]
    have hP1 : decodeHexString seq.transition.patch = .ok P := by
      simp [decodeHexString, hP]
    rw [hS1] at h ⊢
    simp only at h ⊢
    cases hloc : identifySignatureOffset f S with
    | error e => rw [hloc] at h; simp at h
    | ok r =>
      obtain ⟨offset, found⟩ := r
      rw [hloc] at h
      simp only at h ⊢
      cases found with
      | false => simp at h
      | true =>
        simp only [if_true] at h ⊢
        rw [hP1] at h ⊢
        simp only at h ⊢
        rcases hap : applyPatch f offset P with ⟨f1, _ | e⟩
        · exact ⟨offset, rfl, hap⟩
        · rw [hap] at h; simp at h


theorem mainSequence_two (inputFile : GoString) (i : Nat) (a b : SequenceEntry) (f : Slice)
    (h : (mainSequence inputFile i [a, b] f).fault = none) :
    (mainTransition inputFile i a f).fault = none ∧
    (mainTransition inputFile (i + 1) b (mainTransition inputFile i a f).buf).fault = none ∧
    (mainSequence inputFile i [a, b] f).buf =
      (mainTransition inputFile (i + 1) b (mainTransition inputFile i a f).buf).buf := by
  rw [mainSequence_cons] at h ⊢
  cases h1 : (mainTransition inputFile i a f).fault with
  | some e => rw [h1] at h; simp at h
  | none =>
    rw [h1] at h
    simp only at h ⊢
    rw [mainSequence_cons] at h ⊢
    cases h2 : (mainTransition inputFile (i + 1) b (mainTransition inputFile i a f).buf).fault with
    | some e => rw [h2] at h; simp at h
    | none => exact ⟨trivial, rfl, rfl⟩

/-- Patching the bytes found at `k` and then patching the old bytes back at `k`
gives the original buffer. -/
theorem patch_then_restore (f f1 f2 : Slice) (k : Nat) (S P : List Byte) (hS : S ≠ [])
    (hlen : S.length = P.length)
    (hwin : ((f.data ++ f.spare).drop k).take S.length = S)
    (h1 : applyPatch f (k : Int) P = (f1, none))
    (h2 : applyPatch f1 (k : Int) S = (f2, none)) : f2 = f := by
  have hP : P ≠ [] := by
    intro h; rw [h] at hlen; exact hS (List.length_eq_zero.mp hlen)
  obtain ⟨hb1, hs1, hl1, hp1⟩ := applyPatch_returns f f1 k P hP h1
  obtain ⟨hb2, hs2, hl2, hp2⟩ := applyPatch_returns f1 f2 k S hS h2
  have hw := (window_eq_iff (f.data ++ f.spare) S k).mp hwin
  have hdata : f2.data = f.data := by
    apply List.ext_getElem?
    intro j
    rw [hp2 j, hp1 j]
    by_cases hr : k ≤ j ∧ j < k + S.length
    · rw [if_pos hr]
      have := hw (j - k) (by omega)
      rw [← this]
      have hj : k + (j - k) = j := by omega
      rw [hj, List.getElem?_append_left (by simp only [Slice.len] at hb1; omega)]
    · rw [if_neg hr, if_neg (by rw [← hlen]; exact hr)]
  cases f
  cases f2
  simp only [Slice.mk.injEq]
  exact ⟨hdata, hs2.trans hs1⟩

/-- After `applyPatch` has written `P` at `k`, `P` is counted at `k`. -/
theorem patched_window (f f1 : Slice) (k : Nat) (P : List Byte) (hP : P ≠ [])
    (h1 : applyPatch f (k : Int) P = (f1, none)) :
    k < f1.len ∧ ((f1.data ++ f1.spare).drop k).take P.length = P := by
  obtain ⟨hb1, _, hl1, hp1⟩ := applyPatch_returns f f1 k P hP h1
  have hpos : 0 < P.length := List.length_pos.mpr hP
  simp only [Slice.len] at hb1 ⊢
  refine ⟨by omega, ?_⟩
  rw [window_eq_iff]
  intro j hj
  rw [List.getElem?_append_left (by omega), hp1, if_pos (by omega)]
  congr 1
  omega

theorem eq_singleton_of_nodup (L : List Nat) (o : Nat) (hnd : L.Nodup)
    (hmem : ∀ x, x ∈ L ↔ x = o) : L = [o] := by
  cases L with
  | nil =>
    have := (hmem o).mpr rfl
    simp at this
  | cons a t =>
    have ha : a = o := (hmem a).mp (by simp)
    subst ha
    have ht : t = [] := by
      apply List.eq_nil_iff_forall_not_mem.mpr
      intro b hb
      have hba : b = a := (hmem b).mp (by simp [hb])
      subst hba
      exact (List.nodup_cons.mp hnd).1 hb
    rw [ht]

theorem matchOffsets_nodup (f : Slice) (signature : List Byte) :
    (matchOffsets f signature).Nodup := by
  unfold matchOffsets matchOffsetsFrom
  exact (List.nodup_range' 0 f.len).filter _

/-- When every byte equal to `signature[0]` leaves room for the whole signature
inside `len(f)`, the counted offsets are the occurrences in the buffer. -/
theorem mem_matchOffsets_of_room (f : Slice) (s0 : Byte) (tl : List Byte) (o : Nat)
    (hroom : ∀ o, f.data[o]? = some s0 → o + (s0 :: tl).length ≤ f.len) :
    o ∈ matchOffsets f (s0 :: tl) ↔ occursAt f.data (s0 :: tl) o := by
  rw [mem_matchOffsets, occursAt, window_eq_iff, window_eq_iff]
  constructor
  · rintro ⟨hlt, hw⟩
    have h0 := hw 0 (by simp)
    rw [Nat.add_zero, List.getElem?_append_left hlt, List.getElem?_cons_zero] at h0
    have hb := hroom o h0
    refine ⟨hb, ?_⟩
    intro j hj
    rw [← hw j hj, List.getElem?_append_left (by simp only [Slice.len] at hb; omega)]
  · rintro ⟨hb, hw⟩
    simp only [List.length_cons, Slice.len] at hb ⊢
    refine ⟨by omega, ?_⟩
    intro j hj
    rw [List.getElem?_append_left (by omega)]
    exact hw j hj

/-- The locator returns the unique occurrence when every byte equal to
`signature[0]` leaves room for the whole signature inside `len(f)`. -/
theorem identifySignatureOffset_unique (f : Slice) (s0 : Byte) (tl : List Byte) (o : Nat)
    (hroom : ∀ o, f.data[o]? = some s0 → o + (s0 :: tl).length ≤ f.len)
    (hocc : occursAt f.data (s0 :: tl) o)
    (huniq : ∀ o1, occursAt f.data (s0 :: tl) o1 → o1 = o) :
    identifySignatureOffset f (s0 :: tl) = .ok ((o : Int), true) := by
  have hL : matchOffsets f (s0 :: tl) = [o] := by
    apply eq_singleton_of_nodup _ _ (matchOffsets_nodup f _)
    intro x
    rw [mem_matchOffsets_of_room f s0 tl x hroom]
    constructor
    · exact huniq x
    · intro hx; rw [hx]; exact hocc
  rw [identifySignatureOffset_eq f s0 tl (fun o1 h1 => by
    have := hroom o1 h1
    simp only [Slice.len, Slice.cap] at this ⊢
    omega), hL]

/-- A single transition on a buffer in which the decoded signature occurs exactly
once, when every byte equal to its first byte leaves room for the whole
signature inside `len(f)`: the patch is written over the occurrence. -/
theorem mainTransition_unique (inputFile : GoString) (i : Nat) (seq : SequenceEntry) (f : Slice)
    (s0 : Byte) (tl P : List Byte) (o : Nat)
    (hS : hexDecodeString seq.transition.signature = .ok (s0 :: tl))
    (hP : hexDecodeString seq.transition.patch = .ok P)
    (hlen : (s0 :: tl).length = P.length)
    (hroom : ∀ o, f.data[o]? = some s0 → o + (s0 :: tl).length ≤ f.len)
    (hocc : occursAt f.data (s0 :: tl) o)
    (huniq : ∀ o1, occursAt f.data (s0 :: tl) o1 → o1 = o) :
    ∃ f1, mainTransition inputFile i seq f =
        ⟨[.before i (hexEncodeToString f.data), .after i (hexEncodeToString f1.data)], f1, none⟩ ∧
      f1.len = f.len ∧ f1.spare = f.spare ∧
      (∀ j, j < P.length → f1.data[o + j]? = P[j]?) ∧
      (∀ j, (j < o ∨ o + P.length ≤ j) → f1.data[j]? = f.data[j]?) := by
  have hloc := identifySignatureOffset_unique f s0 tl o hroom hocc huniq
  have hb : o + 0 + P.length ≤ f.len := by
    have := hocc.1
    rw [hlen] at this
    simp only [Slice.len]
    omega
  obtain ⟨f1, h1, h2, h3, h4⟩ := applyPatchFrom_ok o P 0 f hb
  have hstr : ¬ seq.transition.signature.length ≠ seq.transition.patch.length := by
    have a := hexDecodeString_length _ _ _ (Nat.le_refl _) hS
    have b := hexDecodeString_length _ _ _ (Nat.le_refl _) hP
    omega
  refine ⟨f1, ?_, h3, h2, ?_, ?_⟩
  · unfold mainTransition
    rw [if_neg hstr]
    simp [decodeHexString, hS, hP, hloc, applyPatch, h1]
  · intro j hj
    rw [h4, if_pos (by omega)]
    congr 1
    omega
  · intro j hj
    rw [h4, if_neg (by omega)]

theorem identifySignatureOffset_not_found (f : Slice) (signature : List Byte) (x : Int)
    (h : identifySignatureOffset f signature = .ok (x, false)) : x = -1 := by
  unfold identifySignatureOffset at h
  split at h
  · cases h
  · split at h
    · simp only [Except.ok.injEq, Prod.mk.injEq, and_true] at h
      exact h.symm
    · split at h
      · cases h
      · simp at h

/-- A reported offset is the only place where the signature occurs inside the
buffer. -/
theorem identifySignatureOffset_no_other (f : Slice) (s0 : Byte) (tl : List Byte) (o : Int)
    (h : identifySignatureOffset f (s0 :: tl) = .ok (o, true)) (o1 : Nat)
    (hocc : occursAt f.data (s0 :: tl) o1) : (o1 : Int) = o := by
  obtain ⟨k, hk, hm, _, _, _⟩ := identifySignatureOffset_found f s0 tl o h
  have hin : o1 ∈ matchOffsets f (s0 :: tl) := by
    rw [mem_matchOffsets]
    have hb := hocc.1
    refine ⟨by simp only [List.length_cons, Slice.len] at hb ⊢; omega, ?_⟩
    rw [window_eq_iff]
    intro j hj
    rw [List.getElem?_append_left (by omega)]
    exact (window_eq_iff f.data (s0 :: tl) o1).mp hocc.2 j hj
  rw [hm] at hin
  have : o1 = k := by simpa using hin
  rw [hk, this]

/-! ## The signature locator (C1 to C4) -/

/-- Claim C1 fails on the code.  The pattern `AB` occurs in `ABA` at offset 0 and
nowhere else, yet `identifySignatureOffset` does not return `(0, true)`: the
last byte equals `P[0]`, the slice expression `f[2:4]` passes `cap(f) = 3` and
the process panics.  With one spare byte of capacity (`A 00 A` followed by a
zero byte, pattern `A 00`, again a single occurrence at offset 0) the slice
expression reads the spare byte, a second match is counted and the call ends in
the "Multiple matches" `log.Fatal`. -/
theorem unique_occurrence_not_returned :
    occursAt [0x41, 0x42, 0x41] [0x41, 0x42] 0 ∧
    (∀ o, occursAt [0x41, 0x42, 0x41] [0x41, 0x42] o → o = 0) ∧
    identifySignatureOffset (Slice.ofList [0x41, 0x42, 0x41]) [0x41, 0x42] =
      .error (.panic .sliceBoundsOutOfRange) ∧
    occursAt [0x41, 0x00, 0x41] [0x41, 0x00] 0 ∧
    (∀ o, occursAt [0x41, 0x00, 0x41] [0x41, 0x00] o → o = 0) ∧
    identifySignatureOffset ⟨[0x41, 0x00, 0x41], [0x00]⟩ [0x41, 0x00] =
      .error (.fatal .multipleMatches) := by
  refine ⟨by decide, ?_, by decide, by decide, ?_, by decide⟩
  · intro o ho
    have hb : o + 2 ≤ 3 := ho.1
    have : o = 0 ∨ o = 1 := by omega
    rcases this with h | h
    · exact h
    · subst h; revert ho; decide
  · intro o ho
    have hb : o + 2 ≤ 3 := ho.1
    have : o = 0 ∨ o = 1 := by omega
    rcases this with h | h
    · exact h
    · subst h; revert ho; decide

/-- Claim C2 fails on the code.  The pattern `AA` occurs in `AAA` at offsets 0 and
1; with `cap(f) = len(f)` the third byte is a candidate whose slice expression
`f[2:4]` is out of range, so the call panics instead of reaching the "Multiple
matches" `log.Fatal`. -/
theorem overlapping_matches_panic :
    occursAt [0x41, 0x41, 0x41] [0x41, 0x41] 0 ∧ occursAt [0x41, 0x41, 0x41] [0x41, 0x41] 1 ∧
    identifySignatureOffset (Slice.ofList [0x41, 0x41, 0x41]) [0x41, 0x41] =
      .error (.panic .sliceBoundsOutOfRange) := by
  decide

/-- Claim C3 fails on the code.  The pattern `41 42` occurs nowhere in the
one-byte buffer `41`, and the call panics on `f[0:2]` instead of returning
`(-1, false)`.  When the buffer has spare capacity (`10 20` followed by two zero
bytes, pattern `20 00 00`) the slice expression succeeds, compares bytes beyond
`len(f)` and reports `(1, true)` for a pattern that does not occur in the
buffer. -/
theorem absent_pattern_not_reported :
    (∀ o, ¬ occursAt [0x41] [0x41, 0x42] o) ∧
    identifySignatureOffset (Slice.ofList [0x41]) [0x41, 0x42] =
      .error (.panic .sliceBoundsOutOfRange) ∧
    (∀ o, ¬ occursAt [0x10, 0x20] [0x20, 0x00, 0x00] o) ∧
    identifySignatureOffset ⟨[0x10, 0x20], [0x00, 0x00]⟩ [0x20, 0x00, 0x00] = .ok (1, true) := by
  refine ⟨?_, by decide, ?_, by decide⟩
  · intro o ho
    have hb : o + 2 ≤ 1 := ho.1
    omega
  · intro o ho
    have hb : o + 3 ≤ 2 := ho.1
    omega

/-- Claim C4 fails on the code.  In the buffer `00 41` offset 1 is a candidate for
the pattern `41 42 43` (`B[1] = P[0]`) with `1 + len(P) > len(B)`; the slice
expression is evaluated without a bounds check and the call panics with "slice
bounds out of range". -/
theorem trailing_candidate_slice_panics :
    ([0x00, 0x41] : List Byte)[1]? = ([0x41, 0x42, 0x43] : List Byte)[0]? ∧
    1 + ([0x41, 0x42, 0x43] : List Byte).length > (Slice.ofList [0x00, 0x41]).len ∧
    (Slice.ofList [0x00, 0x41]).slice 1 (1 + ([0x41, 0x42, 0x43] : List Byte).length) = none ∧
    identifySignatureOffset (Slice.ofList [0x00, 0x41]) [0x41, 0x42, 0x43] =
      .error (.panic .sliceBoundsOutOfRange) := by
  decide

/-! ## The patch applier (C5) -/

/-- Claim C5.  For every buffer `f`, offset `o` (a zero-based index) and patch `p`
with `o + len(p) ≤ len(f)`, `applyPatch(f, o, p)` returns without panic a buffer
of the same length (and the same spare capacity) whose bytes `o + i`, for
`i < len(p)`, are `p[i]`, and whose bytes at every index `j` outside
`[o, o + len(p))` are those of `f`. -/
theorem applyPatch_overwrites_range (f : Slice) (o : Nat) (p : List Byte)
    (h : o + p.length ≤ f.len) :
    ∃ f1, applyPatch f (o : Int) p = (f1, none) ∧ f1.len = f.len ∧ f1.spare = f.spare ∧
      (∀ i, i < p.length → f1.data[o + i]? = p[i]?) ∧
      (∀ j, (j < o ∨ o + p.length ≤ j) → f1.data[j]? = f.data[j]?) := by
  obtain ⟨f1, h1, h2, h3, h4⟩ := applyPatchFrom_ok o p 0 f (by omega)
  refine ⟨f1, h1, h3, h2, ?_, ?_⟩
  · intro i hi
    rw [h4]
    have : o + 0 ≤ o + i ∧ o + i < o + 0 + p.length := by omega
    rw [if_pos this]
    congr 1
    omega
  · intro j hj
    rw [h4]
    have : ¬ (o + 0 ≤ j ∧ j < o + 0 + p.length) := by omega
    rw [if_neg this]

/-- Claim C5 at the buffer `01 02 03 04`, offset 1 and patch `07 08`. -/
theorem applyPatch_overwrites_range_witness :
    1 + ([7, 8] : List Byte).length ≤ (Slice.ofList [1, 2, 3, 4]).len ∧
    ∃ f1, applyPatch (Slice.ofList [1, 2, 3, 4]) ((1 : Nat) : Int) [7, 8] = (f1, none) ∧
      f1.len = (Slice.ofList [1, 2, 3, 4]).len ∧ f1.spare = (Slice.ofList [1, 2, 3, 4]).spare ∧
      (∀ i, i < ([7, 8] : List Byte).length → f1.data[1 + i]? = ([7, 8] : List Byte)[i]?) ∧
      (∀ j, (j < 1 ∨ 1 + ([7, 8] : List Byte).length ≤ j) →
        f1.data[j]? = (Slice.ofList [1, 2, 3, 4]).data[j]?) :=
  ⟨by decide, applyPatch_overwrites_range (Slice.ofList [1, 2, 3, 4]) 1 [7, 8] (by decide)⟩

/-! ## The sequence runner (C6 to C10) -/

/-- Claim C6.  For a transition whose signature and patch strings both decode:
if the decoded lengths differ, the transition ends in the size-mismatch
`log.Fatal` having printed only the three report lines (the "before" line that
precedes the call of `identifySignatureOffset` is not reached) and with the
buffer `f` untouched, whatever `f` is; and the size-mismatch failure is raised
exactly when the decoded lengths differ. -/
theorem size_mismatch_precedes_locator (inputFile : GoString) (i : Nat) (seq : SequenceEntry)
    (f : Slice) (sig pat : List Byte)
    (hs : hexDecodeString seq.transition.signature = .ok sig)
    (hp : hexDecodeString seq.transition.patch = .ok pat) :
    (sig.length ≠ pat.length →
      mainTransition inputFile i seq f =
        ⟨[.sequenceNum i inputFile, .signatureByteLen seq.transition.signature.length,
          .patchByteLen seq.transition.patch.length], f, some (.fatal .sizeMismatch)⟩) ∧
    ((mainTransition inputFile i seq f).fault = some (.fatal .sizeMismatch) ↔
      sig.length ≠ pat.length) := by
  have h1 := hexDecodeString_length _ _ _ (Nat.le_refl _) hs
  have h2 := hexDecodeString_length _ _ _ (Nat.le_refl _) hp
  have key : sig.length ≠ pat.length →
      mainTransition inputFile i seq f =
        ⟨[.sequenceNum i inputFile, .signatureByteLen seq.transition.signature.length,
          .patchByteLen seq.transition.patch.length], f, some (.fatal .sizeMismatch)⟩ := by
    intro hne
    have : seq.transition.signature.length ≠ seq.transition.patch.length := by omega
    unfold mainTransition
    rw [if_pos this]
  refine ⟨key, ?_, ?_⟩
  · intro hf
    rcases (mainTransition_fatal_keeps_buffer inputFile i seq f _ hf).2 with ⟨_, h⟩ | ⟨e, h⟩ | h | h
    · omega
    · cases h
    · cases h
    · cases h
  · intro hne
    rw [key hne]

/-- Claim C6 at the signature `AABB` and the patch `CC`. -/
theorem size_mismatch_precedes_locator_witness :
    hexDecodeString (ascii "AABB") = .ok [0xAA, 0xBB] ∧ hexDecodeString (ascii "CC") = .ok [0xCC] ∧
    mainTransition (ascii "in.bin") 4 ⟨[], [], ⟨ascii "AABB", ascii "CC"⟩⟩
        (Slice.ofList [0xAA, 0xBB]) =
      ⟨[.sequenceNum 4 (ascii "in.bin"), .signatureByteLen 4, .patchByteLen 2],
        Slice.ofList [0xAA, 0xBB], some (.fatal .sizeMismatch)⟩ :=
  ⟨by decide, by decide,
    (size_mismatch_precedes_locator (ascii "in.bin") 4 ⟨[], [], ⟨ascii "AABB", ascii "CC"⟩⟩
      (Slice.ofList [0xAA, 0xBB]) [0xAA, 0xBB] [0xCC] (by decide) (by decide)).1 (by decide)⟩


/-- Claim C7 fails on the code.  The runner does work on the buffer left by the
previous transition (`mainSequence_append_cons`), but a second transition whose
signature occurs only after the first patch need not succeed.  File
`01 02 00 09`, read into a slice whose spare capacity starts with a zero byte,
transitions `02 -> 09` and `09 00 -> 0a 0b`: the signature `09 00` does not
occur in the original buffer and occurs exactly once, at offset 1, in the
buffer `01 09 00 09` left by the first transition; the locator also counts
offset 3, where the slice expression reads the spare byte, and the run ends in
the "Multiple matches" `log.Fatal` with only the first edit made. -/
theorem later_signature_counted_twice :
    hexDecodeString (ascii "02") = .ok [0x02] ∧ hexDecodeString (ascii "09") = .ok [0x09] ∧
    hexDecodeString (ascii "0900") = .ok [0x09, 0x00] ∧
    hexDecodeString (ascii "0a0b") = .ok [0x0a, 0x0b] ∧
    (∀ o, ¬ occursAt [0x01, 0x02, 0x00, 0x09] [0x09, 0x00] o) ∧
    occursAt [0x01, 0x09, 0x00, 0x09] [0x09, 0x00] 1 ∧
    (∀ o, occursAt [0x01, 0x09, 0x00, 0x09] [0x09, 0x00] o → o = 1) ∧
    (∀ rest : List Byte,
      mainSequence [] 0
          [⟨[], [], ⟨ascii "02", ascii "09"⟩⟩, ⟨[], [], ⟨ascii "0900", ascii "0a0b"⟩⟩]
          ⟨[0x01, 0x02, 0x00, 0x09], 0x00 :: rest⟩ =
        ⟨[.before 0 (ascii "01020009"), .after 0 (ascii "01090009"),
          .before 1 (ascii "01090009")],
          ⟨[0x01, 0x09, 0x00, 0x09], 0x00 :: rest⟩, some (.fatal .multipleMatches)⟩) := by
  have hocc : ∀ (B : List Byte) (o : Nat), B.length = 4 → occursAt B [0x09, 0x00] o →
      o = 0 ∨ o = 1 ∨ o = 2 := by
    intro B o hB ho
    have hb := ho.1
    simp only [List.length_cons, List.length_nil, hB] at hb
    omega
  refine ⟨by decide, by decide, by decide, by decide, ?_, by decide, ?_, ?_⟩
  · intro o ho
    rcases hocc [0x01, 0x02, 0x00, 0x09] o rfl ho with h | h | h <;> subst h <;> revert ho <;>
      decide
  · intro o ho
    rcases hocc [0x01, 0x09, 0x00, 0x09] o rfl ho with h | h | h
    · subst h; revert ho; decide
    · exact h
    · subst h; revert ho; decide
  · intro rest
    have hs1 : decodeHexString (ascii "02") = .ok [0x02] := by decide
    have hp1 : decodeHexString (ascii "09") = .ok [0x09] := by decide
    have hs2 : decodeHexString (ascii "0900") = .ok [0x09, 0x00] := by decide
    have hloc1 : identifySignatureOffset ⟨[0x01, 0x02, 0x00, 0x09], 0x00 :: rest⟩ [0x02] =
        .ok (1, true) := by
      have h1 : 2 ≤ 4 + (rest.length + 1) := by omega
      simp [identifySignatureOffset, scan, Slice.slice, Slice.cap, h1]
    have hap1 : applyPatch ⟨[0x01, 0x02, 0x00, 0x09], 0x00 :: rest⟩ 1 [0x09] =
        (⟨[0x01, 0x09, 0x00, 0x09], 0x00 :: rest⟩, none) := by
      simp [applyPatch, applyPatchFrom, Slice.set, Slice.len]
    have hloc2 : identifySignatureOffset ⟨[0x01, 0x09, 0x00, 0x09], 0x00 :: rest⟩ [0x09, 0x00] =
        .error (.fatal .multipleMatches) := by
      have h1 : 3 ≤ 4 + (rest.length + 1) := by omega
      have h2 : 5 ≤ 4 + (rest.length + 1) := by omega
      simp [identifySignatureOffset, scan, Slice.slice, Slice.cap, h1, h2]
    have hne1 : ¬ (ascii "02").length ≠ (ascii "09").length := by decide
    have hne2 : ¬ (ascii "0900").length ≠ (ascii "0a0b").length := by decide
    have henc1 : hexEncodeToString [0x01, 0x02, 0x00, 0x09] = ascii "01020009" := by decide
    have henc2 : hexEncodeToString [0x01, 0x09, 0x00, 0x09] = ascii "01090009" := by decide
    have ht1 : mainTransition [] 0 ⟨[], [], ⟨ascii "02", ascii "09"⟩⟩
        ⟨[0x01, 0x02, 0x00, 0x09], 0x00 :: rest⟩ =
        ⟨[.before 0 (ascii "01020009"), .after 0 (ascii "01090009")],
          ⟨[0x01, 0x09, 0x00, 0x09], 0x00 :: rest⟩, none⟩ := by
      simp only [mainTransition, if_neg hne1, hs1, hp1, hloc1, hap1, henc1, henc2, if_true]
    have ht2 : mainTransition [] (0 + 1) ⟨[], [], ⟨ascii "0900", ascii "0a0b"⟩⟩
        ⟨[0x01, 0x09, 0x00, 0x09], 0x00 :: rest⟩ =
        ⟨[.before 1 (ascii "01090009")],
          ⟨[0x01, 0x09, 0x00, 0x09], 0x00 :: rest⟩, some (.fatal .multipleMatches)⟩ := by
      simp only [mainTransition, if_neg hne2, hs2, hloc2, henc2]
    rw [mainSequence_cons, ht1]
    simp only
    rw [mainSequence_cons, ht2]
    rfl

/-- Claim C8 fails on the code.  For a buffer `41` with one spare zero byte of
capacity and the signature `41 00`, `identifySignatureOffset` returns
`(0, true)` although `0 + len(S) = 2 > len(B) = 1`; the following
`applyPatch` with the patch `42 00` writes the first byte and then panics on the
index `1`, and that is how the transition ends in `main`. -/
theorem found_offset_beyond_length :
    identifySignatureOffset ⟨[0x41], [0x00]⟩ [0x41, 0x00] = .ok (0, true) ∧
    ¬ (0 + ([0x41, 0x00] : List Byte).length ≤ (⟨[0x41], [0x00]⟩ : Slice).len) ∧
    applyPatch ⟨[0x41], [0x00]⟩ 0 [0x42, 0x00] =
      (⟨[0x42], [0x00]⟩, some (.panic .indexOutOfRange)) ∧
    mainTransition [] 0 ⟨[], [], ⟨ascii "4100", ascii "4200"⟩⟩ ⟨[0x41], [0x00]⟩ =
      ⟨[.before 0 (ascii "41")], ⟨[0x42], [0x00]⟩, some (.panic .indexOutOfRange)⟩ := by
  decide

/-- Claim C9 fails as stated.  The patch string `zz` is not valid hex, but with the
signature `AA` on the buffer `00` the transition ends in "Signature Not Found":
the patch is decoded only after the locator has reported a match.  And with the
strings `zz` and `zzzz` the transition ends in the size-mismatch failure: the
length comparison comes before any decoding. -/
theorem malformed_patch_counterexample :
    hexDecodeString (ascii "zz") = .error (.invalidByte 0x7a) ∧
    mainTransition [] 0 ⟨[], [], ⟨ascii "AA", ascii "zz"⟩⟩ (Slice.ofList [0]) =
      ⟨[.before 0 (ascii "00")], Slice.ofList [0], some (.fatal .signatureNotFound)⟩ ∧
    mainTransition [] 0 ⟨[], [], ⟨ascii "zz", ascii "zzzz"⟩⟩ (Slice.ofList [0]) =
      ⟨[.sequenceNum 0 [], .signatureByteLen 2, .patchByteLen 4], Slice.ofList [0],
        some (.fatal .sizeMismatch)⟩ := by
  decide

/-- Claim C9, amended.  For a transition whose two strings have the same length:
if the signature string is not valid hex the transition ends in the hex-decode
`log.Fatal` with nothing printed (the locator is not reached) and the buffer
untouched, whatever the buffer; if the signature decodes and the patch string
does not, the hex-decode failure is raised when the locator reports a match,
"Signature Not Found" when it reports none, and the locator's own fault when it
ends the process, each time with the buffer untouched. -/
theorem hex_decode_failure_order (inputFile : GoString) (i : Nat) (seq : SequenceEntry)
    (f : Slice) (hlen : seq.transition.signature.length = seq.transition.patch.length) :
    (∀ e, hexDecodeString seq.transition.signature = .error e →
      mainTransition inputFile i seq f = ⟨[], f, some (.fatal (.hexDecode e))⟩) ∧
    (∀ sig e, hexDecodeString seq.transition.signature = .ok sig →
      hexDecodeString seq.transition.patch = .error e →
      (∀ o, identifySignatureOffset f sig = .ok (o, true) →
        mainTransition inputFile i seq f =
          ⟨[.before i (hexEncodeToString f.data)], f, some (.fatal (.hexDecode e))⟩) ∧
      (∀ o, identifySignatureOffset f sig = .ok (o, false) →
        mainTransition inputFile i seq f =
          ⟨[.before i (hexEncodeToString f.data)], f, some (.fatal .signatureNotFound)⟩) ∧
      (∀ e1, identifySignatureOffset f sig = .error e1 →
        mainTransition inputFile i seq f =
          ⟨[.before i (hexEncodeToString f.data)], f, some e1⟩)) := by
  have hn : ¬ seq.transition.signature.length ≠ seq.transition.patch.length := by
    intro h; exact h hlen
  refine ⟨?_, ?_⟩
  · intro e he
    unfold mainTransition
    rw [if_neg hn]
    simp [decodeHexString, he]
  · intro sig e hs hp
    refine ⟨?_, ?_, ?_⟩
    · intro o ho
      unfold mainTransition
      rw [if_neg hn]
      simp [decodeHexString, hs, hp, ho]
    · intro o ho
      unfold mainTransition
      rw [if_neg hn]
      simp [decodeHexString, hs, ho]
    · intro e1 ho
      unfold mainTransition
      rw [if_neg hn]
      simp [decodeHexString, hs, ho]

/-- Claim C9, amended, at the signature string `zz` and the patch string `AA`. -/
theorem hex_decode_failure_order_witness :
    (ascii "zz").length = (ascii "AA").length ∧
    mainTransition [] 0 ⟨[], [], ⟨ascii "zz", ascii "AA"⟩⟩ (Slice.ofList [0xAA]) =
      ⟨[], Slice.ofList [0xAA], some (.fatal (.hexDecode (.invalidByte 0x7a)))⟩ :=
  ⟨by decide,
    (hex_decode_failure_order [] 0 ⟨[], [], ⟨ascii "zz", ascii "AA"⟩⟩ (Slice.ofList [0xAA])
      (by decide)).1 (.invalidByte 0x7a) (by decide)⟩

/-- Claim C10 fails on the code.  One-byte file `41`, read into a slice whose
spare capacity starts with a zero byte, signature `4100`, patch `4200`: the
signature does not occur in the buffer, so the transition fails, but not
without changing a byte: the locator matches across the end of the buffer,
`applyPatch` stores `42` in `f[0]` and then panics on `f[1]`.  In `main` the
run of that file sequence ends in this panic. -/
theorem absent_signature_transition_writes_byte :
    hexDecodeString (ascii "4100") = .ok [0x41, 0x00] ∧
    hexDecodeString (ascii "4200") = .ok [0x42, 0x00] ∧
    (∀ o, ¬ occursAt [0x41] [0x41, 0x00] o) ∧
    (∀ rest : List Byte,
      mainTransition (ascii "in.bin") 0 ⟨[], [], ⟨ascii "4100", ascii "4200"⟩⟩
          ⟨[0x41], 0x00 :: rest⟩ =
        ⟨[.before 0 (ascii "41")], ⟨[0x42], 0x00 :: rest⟩, some (.panic .indexOutOfRange)⟩) ∧
    (∀ (w : World) (rest : List Byte), w.files (ascii "in.bin") = some [0x41] →
      w.readSpare [0x41] = 0x00 :: rest →
      (main [⟨ascii "in.bin", ascii "out.bin", [⟨[], [], ⟨ascii "4100", ascii "4200"⟩⟩]⟩] w).fault =
        some (.panic .indexOutOfRange)) := by
  have key : ∀ (inputFile : GoString) (rest : List Byte),
      mainTransition inputFile 0 ⟨[], [], ⟨ascii "4100", ascii "4200"⟩⟩ ⟨[0x41], 0x00 :: rest⟩ =
        ⟨[.before 0 (ascii "41")], ⟨[0x42], 0x00 :: rest⟩, some (.panic .indexOutOfRange)⟩ := by
    intro inputFile rest
    have hs : decodeHexString (ascii "4100") = .ok [0x41, 0x00] := by decide
    have hp : decodeHexString (ascii "4200") = .ok [0x42, 0x00] := by decide
    have hloc : identifySignatureOffset ⟨[0x41], 0x00 :: rest⟩ [0x41, 0x00] = .ok (0, true) := by
      have h1 : 2 ≤ 1 + (rest.length + 1) := by omega
      simp [identifySignatureOffset, scan, Slice.slice, Slice.cap, h1]
    have hap : applyPatch ⟨[0x41], 0x00 :: rest⟩ 0 [0x42, 0x00] =
        (⟨[0x42], 0x00 :: rest⟩, some (.panic .indexOutOfRange)) := by
      simp [applyPatch, applyPatchFrom, Slice.set, Slice.len]
    have hne : ¬ (ascii "4100").length ≠ (ascii "4200").length := by decide
    have henc : hexEncodeToString [0x41] = ascii "41" := by decide
    simp only [mainTransition, if_neg hne, hs, hp, hloc, hap, henc, if_true]
  refine ⟨by decide, by decide, ?_, key _, ?_⟩
  · intro o ho
    have hb : o + 2 ≤ 1 := ho.1
    omega
  · intro w rest hfile hspare
    have hread : w.readFile (ascii "in.bin") = some ⟨[0x41], 0x00 :: rest⟩ := by
      simp [World.readFile, hfile, hspare]
    rw [main_cons, hread]
    simp only [mainSequence_cons, key]

/-- A transition that ends in a `log.Fatal`.  Suppose the file sequences `pre`
completed and left the environment `w1`, the input file of `fileSeq` was read as
`f`, its transitions `ts1` ran without fault and left `f1`, and the next
transition ends in a `log.Fatal` `m` (hex decode, size mismatch, signature not
found or multiple matches).  Then that transition leaves the buffer `f1` as it
was, `main` ends with that failure, and the environment it leaves is `w1`:
nothing is written for `fileSeq` or for any later file sequence. -/
theorem fatal_transition_aborts_run (pre : PatchDefinition) (fileSeq : FileSequence)
    (post : PatchDefinition) (w w1 : World) (out0 out1 : List Output)
    (ts1 : List SequenceEntry) (seq : SequenceEntry) (ts2 : List SequenceEntry)
    (f f1 : Slice) (m : Fatal)
    (hpre : main pre w = ⟨w1, out0, none⟩)
    (hread : w1.readFile fileSeq.inputFile = some f)
    (hseq : fileSeq.sequence = ts1 ++ seq :: ts2)
    (hts1 : mainSequence fileSeq.inputFile 0 ts1 f = ⟨out1, f1, none⟩)
    (hfail : (mainTransition fileSeq.inputFile ts1.length seq f1).fault = some (.fatal m)) :
    (mainTransition fileSeq.inputFile ts1.length seq f1).buf = f1 ∧
    (mainSequence fileSeq.inputFile 0 fileSeq.sequence f).buf = f1 ∧
    (main (pre ++ fileSeq :: post) w).fault = some (.fatal m) ∧
    (main (pre ++ fileSeq :: post) w).world = w1 := by
  have hbuf := (mainTransition_fatal_keeps_buffer fileSeq.inputFile ts1.length seq f1 m hfail).1
  have hrun : mainSequence fileSeq.inputFile 0 fileSeq.sequence f =
      ⟨out1 ++ (mainTransition fileSeq.inputFile ts1.length seq f1).out, f1,
        some (.fatal m)⟩ := by
    rw [hseq, mainSequence_append_cons fileSeq.inputFile ts1 seq ts2 f f1 out1 hts1,
      hfail]
    simp only [hbuf]
  have hpf : (main pre w).fault = none := by rw [hpre]
  have hcur : main (fileSeq :: post) w1 =
      ⟨w1, out1 ++ (mainTransition fileSeq.inputFile ts1.length seq f1).out,
        some (.fatal m)⟩ := by
    rw [main_cons, hread]
    simp only [hrun]
  refine ⟨hbuf, by rw [hrun], ?_, ?_⟩
  · rw [main_append_ok pre (fileSeq :: post) w hpf, hpre]
    simp only [hcur]
  · rw [main_append_ok pre (fileSeq :: post) w hpf, hpre]
    simp only [hcur]


/-- The previous statement where the first file sequence has written `a.out` and
the second finds the one-byte signature `AA` at offsets 3 and 7 of its input. -/
theorem fatal_transition_aborts_run_at_ambiguous_signature :
    main [⟨ascii "a.bin", ascii "a.out", [⟨[], [], ⟨ascii "01", ascii "05"⟩⟩]⟩] demoWorld =
      ⟨demoWorldAfter, [.before 0 (ascii "0102"), .after 0 (ascii "0502")], none⟩ ∧
    (mainTransition (ascii "in.bin") 0 ⟨[], [], ⟨ascii "AA", ascii "BB"⟩⟩
      ⟨[0, 0, 0, 0xAA, 0, 0, 0, 0xAA], [0, 0]⟩).fault = some (.fatal .multipleMatches) ∧
    (mainTransition (ascii "in.bin") 0 ⟨[], [], ⟨ascii "AA", ascii "BB"⟩⟩
      ⟨[0, 0, 0, 0xAA, 0, 0, 0, 0xAA], [0, 0]⟩).buf = ⟨[0, 0, 0, 0xAA, 0, 0, 0, 0xAA], [0, 0]⟩ ∧
    (main ([⟨ascii "a.bin", ascii "a.out", [⟨[], [], ⟨ascii "01", ascii "05"⟩⟩]⟩] ++
        ⟨ascii "in.bin", ascii "out.bin", [⟨[], [], ⟨ascii "AA", ascii "BB"⟩⟩]⟩ ::
        [⟨ascii "a.bin", ascii "b.out", []⟩]) demoWorld).fault = some (.fatal .multipleMatches) ∧
    (main ([⟨ascii "a.bin", ascii "a.out", [⟨[], [], ⟨ascii "01", ascii "05"⟩⟩]⟩] ++
        ⟨ascii "in.bin", ascii "out.bin", [⟨[], [], ⟨ascii "AA", ascii "BB"⟩⟩]⟩ ::
        [⟨ascii "a.bin", ascii "b.out", []⟩]) demoWorld).world = demoWorldAfter :=
  have h := fatal_transition_aborts_run
    [⟨ascii "a.bin", ascii "a.out", [⟨[], [], ⟨ascii "01", ascii "05"⟩⟩]⟩]
    ⟨ascii "in.bin", ascii "out.bin", [⟨[], [], ⟨ascii "AA", ascii "BB"⟩⟩]⟩
    [⟨ascii "a.bin", ascii "b.out", []⟩] demoWorld demoWorldAfter
    [.before 0 (ascii "0102"), .after 0 (ascii "0502")] []
    [] ⟨[], [], ⟨ascii "AA", ascii "BB"⟩⟩ []
    ⟨[0, 0, 0, 0xAA, 0, 0, 0, 0xAA], [0, 0]⟩ ⟨[0, 0, 0, 0xAA, 0, 0, 0, 0xAA], [0, 0]⟩
    .multipleMatches rfl rfl rfl rfl (by decide)
  ⟨rfl, by decide, h.1, h.2.2.1, h.2.2.2⟩

/-! ## Persistence, length, round trips and edge cases (C11 to C17) -/

/-- Claim C11.  When the run of one file sequence succeeds, its input was read
as some `f` and all transitions ran without fault; if the output location is
empty the environment after the run is the environment before it (no file is
written, so the input file and every other file keep their content); if it is
not empty the only change is that the output location holds the final buffer
after all transitions. -/
theorem output_written_only_when_named (fileSeq : FileSequence) (w : World)
    (h : (main [fileSeq] w).fault = none) :
    ∃ f, w.readFile fileSeq.inputFile = some f ∧
      (mainSequence fileSeq.inputFile 0 fileSeq.sequence f).fault = none ∧
      (fileSeq.outputFile = [] → (main [fileSeq] w).world = w) ∧
      (fileSeq.outputFile ≠ [] →
        (main [fileSeq] w).world =
          ⟨fun p =>
              if p = fileSeq.outputFile then
                some (mainSequence fileSeq.inputFile 0 fileSeq.sequence f).buf.data
              else w.files p,
            w.readSpare, w.writable⟩) := by
  obtain ⟨f, w1, hread, hseq, hper, hw⟩ := main_single_ok fileSeq w h
  refine ⟨f, hread, hseq, ?_, ?_⟩
  · intro hout
    rw [hw]
    unfold persist at hper
    rw [hout] at hper
    simp at hper
    exact hper.symm
  · intro hout
    rw [hw]
    unfold persist at hper
    have hpos : fileSeq.outputFile.length > 0 := List.length_pos.mpr hout
    rw [if_pos hpos] at hper
    unfold World.writeFile at hper
    split at hper
    · exact (Option.some.inj hper).symm
    · simp at hper

/-- Claim C11 for a file sequence without output location: the run succeeds and
leaves every stored file as it was. -/
theorem output_written_only_when_named_witness :
    (main [⟨ascii "a.bin", [], [⟨[], [], ⟨ascii "01", ascii "05"⟩⟩]⟩] demoWorld).fault = none ∧
    (main [⟨ascii "a.bin", [], [⟨[], [], ⟨ascii "01", ascii "05"⟩⟩]⟩] demoWorld).world =
      demoWorld :=
  ⟨by decide,
    (output_written_only_when_named ⟨ascii "a.bin", [], [⟨[], [], ⟨ascii "01", ascii "05"⟩⟩]⟩
      demoWorld (by decide)).elim (fun _ hf => hf.2.2.1 rfl)⟩

/-- Claim C12.  When the run of one file sequence on an input of content
`content` succeeds, every initial stretch `ts1` of its transitions has run
without fault and left a buffer of `len(content)` bytes, the final buffer has
`len(content)` bytes, and so has the content written to a non-empty output
location. -/
theorem run_keeps_length (fileSeq : FileSequence) (w : World) (content : List Byte)
    (ts1 ts2 : List SequenceEntry)
    (hread : w.files fileSeq.inputFile = some content)
    (hseq : fileSeq.sequence = ts1 ++ ts2)
    (h : (main [fileSeq] w).fault = none) :
    (mainSequence fileSeq.inputFile 0 ts1 ⟨content, w.readSpare content⟩).fault = none ∧
    (mainSequence fileSeq.inputFile 0 ts1 ⟨content, w.readSpare content⟩).buf.data.length =
      content.length ∧
    (mainSequence fileSeq.inputFile 0 fileSeq.sequence
      ⟨content, w.readSpare content⟩).buf.data.length = content.length ∧
    (fileSeq.outputFile ≠ [] →
      ∃ written, (main [fileSeq] w).world.files fileSeq.outputFile = some written ∧
        written.length = content.length) := by
  obtain ⟨f, w1, hrd, hok, hper, hw⟩ := main_single_ok fileSeq w h
  have hf : f = ⟨content, w.readSpare content⟩ := by
    unfold World.readFile at hrd
    rw [hread] at hrd
    exact (Option.some.inj hrd).symm
  subst hf
  have hpre : (mainSequence fileSeq.inputFile 0 ts1 ⟨content, w.readSpare content⟩).fault =
      none := by
    cases hc : (mainSequence fileSeq.inputFile 0 ts1 ⟨content, w.readSpare content⟩).fault with
    | none => rfl
    | some e =>
      rw [hseq, mainSequence_append_fault fileSeq.inputFile ts1 ts2 0 _ e hc, hc] at hok
      cases hok
  have hlen := fun ts => (mainSequence_len fileSeq.inputFile ts 0 ⟨content, w.readSpare content⟩).1
  refine ⟨hpre, hlen ts1, hlen _, ?_⟩
  intro hout
  rw [hw]
  unfold persist at hper
  have hpos : fileSeq.outputFile.length > 0 := List.length_pos.mpr hout
  rw [if_pos hpos] at hper
  unfold World.writeFile at hper
  split at hper
  · have := (Option.some.inj hper).symm
    rw [this]
    exact ⟨_, by simp, hlen fileSeq.sequence⟩
  · simp at hper

/-- Claim C12 on the two-byte input `a.bin` with one transition and the output
location `a.out`. -/
theorem run_keeps_length_witness :
    demoWorld.files (ascii "a.bin") = some [1, 2] ∧
    (main [⟨ascii "a.bin", ascii "a.out", [⟨[], [], ⟨ascii "01", ascii "05"⟩⟩]⟩]
      demoWorld).fault = none ∧
    (mainSequence (ascii "a.bin") 0 [⟨[], [], ⟨ascii "01", ascii "05"⟩⟩]
      ⟨[1, 2], demoWorld.readSpare [1, 2]⟩).buf.data.length = ([1, 2] : List Byte).length :=
  ⟨rfl, by decide,
    (run_keeps_length ⟨ascii "a.bin", ascii "a.out", [⟨[], [], ⟨ascii "01", ascii "05"⟩⟩]⟩
      demoWorld [1, 2] [⟨[], [], ⟨ascii "01", ascii "05"⟩⟩] [] rfl rfl (by decide)).2.1⟩

/-- Claim C13 fails on the code.  File `41 00 41`, read into a slice whose spare
capacity starts with a zero byte (what `ioutil.ReadFile` returns), signature
`4100`, patch `4200`: both strings are valid hex of decoded length 2 and the
decoded signature occurs exactly once in the buffer, at offset 0.  The run does
not patch it: at offset 2 the slice expression `f[2:4]` reads the spare byte, a
second match is counted, and the single transition ends in the "Multiple
matches" `log.Fatal` with the buffer unchanged. -/
theorem single_transition_ambiguous_on_spare_byte :
    hexDecodeString (ascii "4100") = .ok [0x41, 0x00] ∧
    hexDecodeString (ascii "4200") = .ok [0x42, 0x00] ∧
    occursAt [0x41, 0x00, 0x41] [0x41, 0x00] 0 ∧
    (∀ o, occursAt [0x41, 0x00, 0x41] [0x41, 0x00] o → o = 0) ∧
    (∀ rest : List Byte,
      mainSequence [] 0 [⟨[], [], ⟨ascii "4100", ascii "4200"⟩⟩]
          ⟨[0x41, 0x00, 0x41], 0x00 :: rest⟩ =
        ⟨[.before 0 (ascii "410041")], ⟨[0x41, 0x00, 0x41], 0x00 :: rest⟩,
          some (.fatal .multipleMatches)⟩) := by
  refine ⟨by decide, by decide, by decide, ?_, ?_⟩
  · intro o ho
    have hb : o + 2 ≤ 3 := ho.1
    have : o = 0 ∨ o = 1 := by omega
    rcases this with h | h
    · exact h
    · subst h; revert ho; decide
  · intro rest
    have hs : decodeHexString (ascii "4100") = .ok [0x41, 0x00] := by decide
    have hloc : identifySignatureOffset ⟨[0x41, 0x00, 0x41], 0x00 :: rest⟩ [0x41, 0x00] =
        .error (.fatal .multipleMatches) := by
      have h1 : 2 ≤ 3 + (rest.length + 1) := by omega
      have h2 : 4 ≤ 3 + (rest.length + 1) := by omega
      simp [identifySignatureOffset, scan, Slice.slice, Slice.cap, h1, h2]
    have hne : ¬ (ascii "4100").length ≠ (ascii "4200").length := by decide
    have henc : hexEncodeToString [0x41, 0x00, 0x41] = ascii "410041" := by decide
    simp only [mainSequence, mainTransition, if_neg hne, hs, hloc, henc]

/-- Claim C14.  `decodeHexString` accepts exactly the strings of even length made
of hex digits; for every accepted string `s`, hex-encoding the decoded bytes
gives `s` converted to lower case; and for every byte sequence `b`, decoding
the hex encoding of `b` gives `b`. -/
theorem hex_round_trip :
    (∀ s : GoString, (∃ b, decodeHexString s = .ok b) ↔
      s.length % 2 = 0 ∧ ∀ c ∈ s, (fromHexChar c).isSome = true) ∧
    (∀ (s : GoString) (b : List Byte), decodeHexString s = .ok b →
      hexEncodeToString b = toLower s) ∧
    (∀ b : List Byte, decodeHexString (hexEncodeToString b) = .ok b) := by
  refine ⟨?_, ?_, ?_⟩
  · intro s
    rw [← hexDecodeString_accepts s.length s (Nat.le_refl _)]
    constructor
    · rintro ⟨b, h⟩; exact ⟨b, (decodeHexString_ok_iff s b).mp h⟩
    · rintro ⟨b, h⟩; exact ⟨b, (decodeHexString_ok_iff s b).mpr h⟩
  · intro s b h
    exact hexEncode_of_decode s.length s b (Nat.le_refl _) ((decodeHexString_ok_iff s b).mp h)
  · intro b
    exact (decodeHexString_ok_iff _ b).mpr (hexDecode_of_encode b)

/-- Claim C14 at the string `DEADbeef`. -/
theorem hex_round_trip_witness :
    decodeHexString (ascii "DEADbeef") = .ok [0xDE, 0xAD, 0xBE, 0xEF] ∧
    hexEncodeToString [0xDE, 0xAD, 0xBE, 0xEF] = toLower (ascii "DEADbeef") ∧
    toLower (ascii "DEADbeef") = ascii "deadbeef" :=
  ⟨by decide, hex_round_trip.2.1 (ascii "DEADbeef") [0xDE, 0xAD, 0xBE, 0xEF] (by decide),
    by decide⟩

/-- Claim C15 fails on the code.  For the buffer `10 20 30` with one spare zero
byte of capacity and the pattern `30 00`, `identifySignatureOffset` returns
`(2, true)` although the pattern does not occur at offset 2 of the buffer (nor
anywhere in it): the slice expression `f[2:4]` is bounded by `cap(f)` and the
comparison reads the spare byte. -/
theorem found_match_extends_past_buffer :
    identifySignatureOffset ⟨[0x10, 0x20, 0x30], [0x00]⟩ [0x30, 0x00] = .ok (2, true) ∧
    ¬ occursAt [0x10, 0x20, 0x30] [0x30, 0x00] 2 ∧
    (⟨[0x10, 0x20, 0x30], [0x00]⟩ : Slice).slice 2 4 = some [0x30, 0x00] := by
  decide

/-- Claim C16.  For every buffer `f` and byte sequences `S`, `P` of equal non-zero
length (given by their hex strings), if the two transitions `S -> P`, `P -> S`
run without fault on `f`, the final buffer is `f`. -/
theorem undo_restores_buffer (inputFile d1 s1 d2 s2 sigStr patStr : GoString)
    (S P : List Byte) (f : Slice)
    (hS : hexDecodeString sigStr = .ok S) (hP : hexDecodeString patStr = .ok P)
    (hlen : S.length = P.length) (hne : S ≠ [])
    (hok : (mainSequence inputFile 0
      [⟨d1, s1, ⟨sigStr, patStr⟩⟩, ⟨d2, s2, ⟨patStr, sigStr⟩⟩] f).fault = none) :
    (mainSequence inputFile 0
      [⟨d1, s1, ⟨sigStr, patStr⟩⟩, ⟨d2, s2, ⟨patStr, sigStr⟩⟩] f).buf = f := by
  have hPne : P ≠ [] := by
    intro h; rw [h] at hlen; exact hne (List.length_eq_zero.mp hlen)
  obtain ⟨ht1, ht2, hbuf⟩ := mainSequence_two inputFile 0 _ _ f hok
  rw [hbuf]
  obtain ⟨o1, hloc1, hap1⟩ := mainTransition_ok inputFile 0 ⟨d1, s1, ⟨sigStr, patStr⟩⟩ f S P hS hP ht1
  obtain ⟨o2, hloc2, hap2⟩ := mainTransition_ok inputFile (0 + 1) ⟨d2, s2, ⟨patStr, sigStr⟩⟩
    (mainTransition inputFile 0 ⟨d1, s1, ⟨sigStr, patStr⟩⟩ f).buf P S hP hS ht2
  obtain ⟨s0, stl, rfl⟩ := List.exists_cons_of_ne_nil hne
  obtain ⟨p0, ptl, rfl⟩ := List.exists_cons_of_ne_nil hPne
  obtain ⟨k1, hk1, _, _, _, hwin1⟩ := identifySignatureOffset_found f s0 stl o1 hloc1
  obtain ⟨k2, hk2, hm2, _, _, _⟩ := identifySignatureOffset_found _ p0 ptl o2 hloc2
  subst hk1
  subst hk2
  have hmem := patched_window f _ k1 (p0 :: ptl) hPne hap1
  have hin : k1 ∈ matchOffsets (mainTransition inputFile 0 ⟨d1, s1, ⟨sigStr, patStr⟩⟩ f).buf
      (p0 :: ptl) := (mem_matchOffsets _ _ _).mpr hmem
  rw [hm2] at hin
  have hk : k1 = k2 := by simpa using hin
  subst hk
  exact patch_then_restore f _ _ k1 (s0 :: stl) (p0 :: ptl) hne hlen hwin1 hap1 hap2

/-- Claim C16 on the buffer `01 02 03` with `S = 02` and `P = 09`. -/
theorem undo_restores_buffer_witness :
    hexDecodeString (ascii "02") = .ok [2] ∧ hexDecodeString (ascii "09") = .ok [9] ∧
    (mainSequence [] 0 [⟨[], [], ⟨ascii "02", ascii "09"⟩⟩, ⟨[], [], ⟨ascii "09", ascii "02"⟩⟩]
      (Slice.ofList [1, 2, 3])).fault = none ∧
    (mainSequence [] 0 [⟨[], [], ⟨ascii "02", ascii "09"⟩⟩, ⟨[], [], ⟨ascii "09", ascii "02"⟩⟩]
      (Slice.ofList [1, 2, 3])).buf = Slice.ofList [1, 2, 3] :=
  ⟨by decide, by decide, by decide,
    undo_restores_buffer [] [] [] [] [] (ascii "02") (ascii "09") [2] [9] (Slice.ofList [1, 2, 3])
      (by decide) (by decide) (by decide) (by decide) (by decide)⟩

/-- Claim C17.  The empty string decodes to the empty byte sequence, and a
transition with signature "" and patch "" never ends in the size-mismatch
failure.  `identifySignatureOffset(f, empty)` returns `(-1, false)` when `f` has
no bytes; for every `f` with at least one byte it panics on `signature[0]`
(index out of range), and that is how the transition ends. -/
theorem empty_signature_edge_case :
    decodeHexString [] = .ok [] ∧
    (∀ (inputFile : GoString) (i : Nat) (desc settings : GoString) (f : Slice),
      (mainTransition inputFile i ⟨desc, settings, ⟨[], []⟩⟩ f).fault ≠
        some (.fatal .sizeMismatch)) ∧
    (∀ spare : List Byte, identifySignatureOffset ⟨[], spare⟩ [] = .ok (-1, false)) ∧
    (∀ (b : Byte) (rest spare : List Byte),
      identifySignatureOffset ⟨b :: rest, spare⟩ [] = .error (.panic .indexOutOfRange)) ∧
    (∀ (inputFile : GoString) (i : Nat) (desc settings : GoString) (b : Byte)
      (rest spare : List Byte),
      mainTransition inputFile i ⟨desc, settings, ⟨[], []⟩⟩ ⟨b :: rest, spare⟩ =
        ⟨[.before i (hexEncodeToString (b :: rest))], ⟨b :: rest, spare⟩,
          some (.panic .indexOutOfRange)⟩) := by
  refine ⟨rfl, ?_, fun _ => rfl, fun _ _ _ => rfl, fun _ _ _ _ _ _ _ => rfl⟩
  intro inputFile i desc settings f hf
  rcases (mainTransition_fatal_keeps_buffer inputFile i _ f _ hf).2 with ⟨_, h⟩ | ⟨e, h⟩ | h | h
  · exact h rfl
  · cases h
  · cases h
  · cases h

end BinPatcher
